import Mathlib

/-!
BleachThisCode: the alias generator, the alias table and the rewrite engine.

Shallow embedding of `src/main.cpp`.

* `std::string` is a Lean `String` (a sequence of code points); the four digit
  strings of `translateToken` are the single code points U+200B, U+200C, U+200D
  and U+FEFF.
* `int curid` is a `Nat`: signed overflow is undefined behaviour, and below
  `2 ^ 31` the `int` arithmetic of the source on nonnegative values is the
  `Nat` arithmetic of the model.
* `std::unordered_map<std::string, std::string>` is an association list that is
  only read by key.
* the token cursor `lex_iterator_type` is the list of tokens not yet read;
  dereferencing it when no token is left is the outcome `pastEnd`.
-/

namespace Bleach

/-! ## Tokens -/

/-- Modelled from the spec: the token categories of the external tokenizer
(Boost.Wave, not under `src/`) that `IS_CATEGORY` is asked about in the source,
together with the categories of the tokens that fall through to the last branch
of `translate` (section 6 of the specification lists the category set). -/
inductive token_category where
  | IdentifierTokenType
  | KeywordTokenType
  | OperatorTokenType
  | IntegerLiteralTokenType
  | FloatingLiteralTokenType
  | StringLiteralTokenType
  | CharacterLiteralTokenType
  | BoolLiteralTokenType
  | PPTokenType
  | UnknownTokenType
  | EOLTokenType
  | EOFTokenType
  | WhiteSpaceTokenType
  deriving DecidableEq, Repr

/-- Modelled from the spec: the token identifiers of the external tokenizer that
the source compares against by name, plus `other cat n` for every further
identifier of category `cat` (`n` tells such identifiers apart). -/
inductive token_id where
  | T_EOF
  | T_LEFTPAREN
  | T_RIGHTPAREN
  | T_COMMA
  | T_CCOMMENT
  | T_CPPCOMMENT
  | T_NEWLINE
  | T_PP_DEFINE
  | other (cat : token_category) (n : Nat)
  deriving DecidableEq, Repr

open token_category token_id

/-- Modelled from the spec: the category carried by each token identifier, as in
the tokenizer's identifier table: parentheses and the comma are operators, both
comment kinds carry the whitespace category, the newline is an end-of-line
token, the define directive a preprocessor token. -/
def CATEGORY_FROM_TOKEN : token_id → token_category
  | T_EOF => EOFTokenType
  | T_LEFTPAREN => OperatorTokenType
  | T_RIGHTPAREN => OperatorTokenType
  | T_COMMA => OperatorTokenType
  | T_CCOMMENT => WhiteSpaceTokenType
  | T_CPPCOMMENT => WhiteSpaceTokenType
  | T_NEWLINE => EOLTokenType
  | T_PP_DEFINE => PPTokenType
  | other cat _ => cat

/-- A token of the stream: its identifier and its literal text. -/
structure lex_token where
  id : token_id
  value : String
  deriving DecidableEq, Repr

/-- The test `IS_CATEGORY(token, cat)`. -/
def IS_CATEGORY (token : lex_token) (cat : token_category) : Bool :=
  CATEGORY_FROM_TOKEN token.id == cat

/-- The conversion `s.c_str()` followed by the construction of a `std::string`
from the resulting C string: the text up to the first NUL character. -/
def c_str (s : String) : String :=
  String.mk (s.data.takeWhile (fun c => c != Char.ofNat 0))

/-! ## The alias table -/

/-- The class `TokenMapper`: the ordered (alias, text) pairs, the map from text
to alias (as (text, alias) entries) and the counter. -/
structure TokenMapper where
  pairs : List (String × String) := []
  tokenMap : List (String × String) := []
  curid : Nat := 0
  deriving DecidableEq, Repr

/-- The lookup `tokenMap.count(key)`. -/
def mapCount (tokenMap : List (String × String)) (key : String) : Nat :=
  match tokenMap.lookup key with
  | some _ => 1
  | none => 0

/-- The read `tokenMap[key]` of a key; an absent key reads as the empty
string. -/
def mapAt (tokenMap : List (String × String)) (key : String) : String :=
  (tokenMap.lookup key).getD ""

/-- The assignment `tokenMap[key] = value`: replaces the value of a present key,
adds an entry for an absent one. -/
def mapAssign : List (String × String) → String → String → List (String × String)
  | [], key, value => [(key, value)]
  | (k, v) :: rest, key, value =>
    if k == key then (k, value) :: rest else (k, v) :: mapAssign rest key value

/-- The table `digits` of `translateToken`. -/
def digits (k : Nat) : String :=
  if k = 0 then "\u200b" else if k = 1 then "\u200c" else if k = 2 then "\u200d" else "\ufeff"

/-- The constant `prefix` of `translateToken`. -/
def aliasPrefix : String := ""

/-- The `while (rem != 0)` loop of `translateToken`; the first argument bounds
the number of iterations. -/
def translateTokenLoop : Nat → Nat → String → String
  | 0, _, outstr => outstr
  | fuel + 1, rem, outstr =>
    if rem != 0 then translateTokenLoop fuel (rem >>> 2) (digits (rem &&& 0x3) ++ outstr)
    else outstr

/-- The method `TokenMapper::translateToken`: the alias for the current counter
value, and the mapper with the counter incremented. The loop divides `rem` by
four in each iteration, so `rem` iterations are always enough. -/
def TokenMapper.translateToken (self : TokenMapper) (_inputToken : String) :
    String × TokenMapper :=
  let rem := self.curid
  let self := { self with curid := self.curid + 1 }
  if rem == 0 then (aliasPrefix ++ digits 0, self)
  else (aliasPrefix ++ translateTokenLoop rem rem "", self)

/-- The method `TokenMapper::mapToken`. -/
def TokenMapper.mapToken (self : TokenMapper) (inputToken : String) : String × TokenMapper :=
  if mapCount self.tokenMap inputToken == 0 then
    let r := self.translateToken inputToken
    let translatedToken := r.1
    let self := r.2
    let self := { self with tokenMap := mapAssign self.tokenMap inputToken translatedToken }
    let self := { self with pairs := self.pairs ++ [(translatedToken, inputToken)] }
    (mapAt self.tokenMap inputToken, self)
  else (mapAt self.tokenMap inputToken, self)

/-- One line of `writeHeader` per pair. -/
def TokenMapper.writeHeader (self : TokenMapper) : String :=
  self.pairs.foldl (fun output pair => output ++ "#define " ++ pair.1 ++ " " ++ pair.2 ++ "\n") ""

/-! ## The rewrite engine -/

/-- What a call of `translate` ends with: it returns (with the cursor, the output
stream and the mapper as it leaves them), or it dereferences the cursor after
the last token of the stream, or the recursion bound of the model is used up. -/
inductive Outcome where
  | returned (iter : List lex_token) (output : String) (mapper : TokenMapper)
  | pastEnd
  | outOfFuel
  deriving DecidableEq, Repr

/-- The function `nextNonWhitespaceIsLeftParen`, on a copy of the cursor; `none`
when it walks off the end of the stream. -/
def nextNonWhitespaceIsLeftParen : List lex_token → Option Bool
  | [] => none
  | token :: iter =>
    if IS_CATEGORY token WhiteSpaceTokenType then nextNonWhitespaceIsLeftParen iter
    else some (token.id == T_LEFTPAREN)

/-- The first condition of the loop body of `translate`: the token belongs to
one of the eight categories that are candidates for aliasing. -/
def isWordLike (token : lex_token) : Bool :=
  IS_CATEGORY token KeywordTokenType || IS_CATEGORY token StringLiteralTokenType ||
  IS_CATEGORY token OperatorTokenType || IS_CATEGORY token IdentifierTokenType ||
  IS_CATEGORY token IntegerLiteralTokenType || IS_CATEGORY token FloatingLiteralTokenType ||
  IS_CATEGORY token CharacterLiteralTokenType || IS_CATEGORY token BoolLiteralTokenType

/-- The `for (;;)` loop of `translate`, with the local variables
`lastEmittedSpace`, `lastTokenIsDefine` and `parenCount` as arguments. The
first argument bounds the depth of the recursion (one unit per token read). -/
def translateLoop : Nat → List lex_token → String → TokenMapper → Bool → Bool → Bool → Int →
    Outcome
  | 0, _, _, _, _, _, _, _ => Outcome.outOfFuel
  | _ + 1, [], _, _, _, _, _, _ => Outcome.pastEnd
  | fuel + 1, token :: iter, output, mapper, functionCallMode, lastEmittedSpace,
      lastTokenIsDefine, parenCount =>
    if token.id == T_EOF then Outcome.returned iter output mapper
    else if isWordLike token then
      let passThrough := functionCallMode &&
        (token.id == T_LEFTPAREN || token.id == T_RIGHTPAREN || token.id == T_COMMA)
      let output := if !lastEmittedSpace && !passThrough then output ++ " " else output
      match (if IS_CATEGORY token IdentifierTokenType && token.id != T_EOF
             then nextNonWhitespaceIsLeftParen iter else some false) with
      | none => Outcome.pastEnd
      | some true =>
        match translateLoop fuel iter "" mapper true false true 0 with
        | Outcome.returned iter newoutput mapper =>
          if !lastTokenIsDefine then
            let r := mapper.mapToken (c_str token.value ++ newoutput)
            translateLoop fuel iter (output ++ " " ++ r.1) r.2 functionCallMode false false
              parenCount
          else
            translateLoop fuel iter (output ++ " " ++ token.value ++ newoutput) mapper
              functionCallMode false false parenCount
        | Outcome.pastEnd => Outcome.pastEnd
        | Outcome.outOfFuel => Outcome.outOfFuel
      | some false =>
        let r := if !(lastTokenIsDefine || passThrough)
          then mapper.mapToken (c_str token.value)
          else (token.value, mapper)
        let output := output ++ r.1
        let mapper := r.2
        let parenCount := if functionCallMode && token.id == T_LEFTPAREN
          then parenCount + 1 else parenCount
        if functionCallMode && token.id == T_RIGHTPAREN then
          if parenCount - 1 = 0 then Outcome.returned iter output mapper
          else translateLoop fuel iter output mapper functionCallMode false false (parenCount - 1)
        else translateLoop fuel iter output mapper functionCallMode false false parenCount
    else if token.id == T_CCOMMENT || token.id == T_CPPCOMMENT then
      translateLoop fuel iter output mapper functionCallMode lastEmittedSpace lastTokenIsDefine
        parenCount
    else if token.id == T_NEWLINE then
      let output := if !functionCallMode then output ++ token.value else output ++ " "
      translateLoop fuel iter output mapper functionCallMode true lastTokenIsDefine parenCount
    else if IS_CATEGORY token WhiteSpaceTokenType then
      translateLoop fuel iter (output ++ " ") mapper functionCallMode true lastTokenIsDefine
        parenCount
    else
      translateLoop fuel iter (output ++ token.value) mapper functionCallMode false
        (token.id == T_PP_DEFINE) parenCount

/-- The function `translate`: the loop entered with `lastEmittedSpace = false`,
`lastTokenIsDefine = true` and `parenCount = 0`. -/
def translate (fuel : Nat) (iter : List lex_token) (output : String) (mapper : TokenMapper)
    (functionCallMode : Bool) : Outcome :=
  translateLoop fuel iter output mapper functionCallMode false true 0

/-- The rewriting step of `main_impl`: `translate` in normal mode on the whole
stream, with an empty output stream and a fresh mapper. One unit of the
recursion bound per token, and one more, is always enough. -/
def bleach (tokens : List lex_token) : Outcome :=
  translate (tokens.length + 1) tokens "" {} false

/-! ### Some tokens of the tokenizer, for concrete streams -/

/-- The identifier token `T_IDENTIFIER`. -/
def T_IDENTIFIER : token_id := other IdentifierTokenType 0
/-- The keyword token `T_INT`. -/
def T_INT : token_id := other KeywordTokenType 0
/-- The operator token `T_ASSIGN`. -/
def T_ASSIGN : token_id := other OperatorTokenType 0
/-- The operator token `T_SEMICOLON`. -/
def T_SEMICOLON : token_id := other OperatorTokenType 1
/-- The integer literal token `T_INTLIT`. -/
def T_INTLIT : token_id := other IntegerLiteralTokenType 0
/-- The whitespace token `T_SPACE`. -/
def T_SPACE : token_id := other WhiteSpaceTokenType 0

/-! ## Reading an alias back (specification side) -/

/-- The four symbols of the alias alphabet, by digit value. -/
def digitChar (k : Nat) : Char :=
  if k = 0 then '\u200b' else if k = 1 then '\u200c' else if k = 2 then '\u200d' else '\ufeff'

/-- Whether a character is one of the four alias symbols. -/
def isAliasSymbol (c : Char) : Bool :=
  c == '\u200b' || c == '\u200c' || c == '\u200d' || c == '\ufeff'

/-- The digit a symbol stands for: `D_k` stands for `k`. -/
def digitValue (c : Char) : Nat :=
  if c = '\u200b' then 0 else if c = '\u200c' then 1 else if c = '\u200d' then 2 else 3

/-- Reading a symbol sequence as a base-4 numeral, most significant symbol
first, starting from the value `acc` of the symbols already read. -/
def decodeFrom (acc : Nat) (l : List Char) : Nat :=
  l.foldl (fun a c => 4 * a + digitValue c) acc

/-- Reading a string as a base-4 numeral over the alias symbols, most
significant symbol first; `none` when a character is not an alias symbol. -/
def decodeAlias (s : String) : Option Nat :=
  if s.data.all isAliasSymbol then some (decodeFrom 0 s.data) else none

/-- The canonical numerals: nonempty strings over the four alias symbols that are the
single symbol `D0` or do not start with `D0`. -/
def isCanonicalAlias (s : String) : Prop :=
  s.data ≠ [] ∧ s.data.all isAliasSymbol = true ∧
    (s = digits 0 ∨ s.data.head? ≠ some (digitChar 0))

/-! ## Runs of the alias table (specification side) -/

/-- The alias the generator makes for counter value `n`. -/
def aliasOf (n : Nat) : String :=
  (TokenMapper.translateToken { curid := n } "").1

/-- The table state after resolving the texts `ts`, in order, from the state `m`. -/
def resolveAll (ts : List String) (m : TokenMapper) : TokenMapper :=
  ts.foldl (fun m t => (m.mapToken t).2) m

/-- The distinct texts of a sequence, each at the place of its first occurrence. -/
def firstSeen : List String → List String
  | [] => []
  | t :: ts => t :: (firstSeen ts).filter (fun u => u != t)

/-- The alias table invariant: the counter counts the pairs, the map holds the pairs
with the sides exchanged, the alias of the `k`-th pair is the generator's alias for
`k`, and no text occurs in two pairs. -/
def TableInv (m : TokenMapper) : Prop :=
  m.curid = m.pairs.length ∧ m.tokenMap = m.pairs.map Prod.swap ∧
    m.pairs.map Prod.fst = (List.range m.pairs.length).map aliasOf ∧
    (m.pairs.map Prod.snd).Nodup

/-! ## One iteration of the loop, in parts

The pieces of the loop body of `translate`, named so that statements about a run can
refer to them. `translateLoop_cons` shows that the loop is made of these pieces. -/

/-- The local `passThrough` of the loop body. -/
def passThroughOf (functionCallMode : Bool) (token : lex_token) : Bool :=
  functionCallMode &&
    (token.id == T_LEFTPAREN || token.id == T_RIGHTPAREN || token.id == T_COMMA)

/-- The output after the separator rule: a space is written unless the last emitted
unit was a space or the token is passed through. -/
def withSeparator (output : String) (lastEmittedSpace passThrough : Bool) : String :=
  if !lastEmittedSpace && !passThrough then output ++ " " else output

/-- The condition of the call fusion branch, with its short-circuit evaluation: the
lookahead runs only for an identifier token. -/
def callLookahead (token : lex_token) (iter : List lex_token) : Option Bool :=
  if IS_CATEGORY token IdentifierTokenType && token.id != T_EOF
  then nextNonWhitespaceIsLeftParen iter else some false

/-- What the call fusion branch writes and how it leaves the mapper, given the text
`newoutput` rendered by the nested invocation. -/
def fusedStep (token : lex_token) (lastTokenIsDefine : Bool) (output newoutput : String)
    (mapper : TokenMapper) : String × TokenMapper :=
  if !lastTokenIsDefine then
    (output ++ " " ++ (mapper.mapToken (c_str token.value ++ newoutput)).1,
      (mapper.mapToken (c_str token.value ++ newoutput)).2)
  else (output ++ " " ++ token.value ++ newoutput, mapper)

/-- What the loop body writes for a word-like token that is not fused, and how it
leaves the mapper. -/
def wordStep (token : lex_token) (lastTokenIsDefine passThrough : Bool) (output : String)
    (mapper : TokenMapper) : String × TokenMapper :=
  if !(lastTokenIsDefine || passThrough)
  then (output ++ (mapper.mapToken (c_str token.value)).1, (mapper.mapToken (c_str token.value)).2)
  else (output ++ token.value, mapper)

/-- The counter `parenCount` after the test for a left parenthesis. -/
def parenStep (functionCallMode : Bool) (token : lex_token) (parenCount : Int) : Int :=
  if functionCallMode && token.id == T_LEFTPAREN then parenCount + 1 else parenCount

/-- What the loop body does with a token that is neither the end marker nor word-like:
the output, `lastEmittedSpace` and `lastTokenIsDefine` after it. -/
def plainStep (token : lex_token) (functionCallMode : Bool) (output : String)
    (lastEmittedSpace lastTokenIsDefine : Bool) : String × Bool × Bool :=
  if token.id == T_CCOMMENT || token.id == T_CPPCOMMENT then
    (output, lastEmittedSpace, lastTokenIsDefine)
  else if token.id == T_NEWLINE then
    (if !functionCallMode then output ++ token.value else output ++ " ", true, lastTokenIsDefine)
  else if IS_CATEGORY token WhiteSpaceTokenType then (output ++ " ", true, lastTokenIsDefine)
  else (output ++ token.value, false, token.id == T_PP_DEFINE)

/-! ## Runs of the loop as a relation

`Run iter output mapper mode les ltd pc r` holds when the loop of `translate`, entered
with the cursor at `iter` and the given values of the output, the mapper,
`functionCallMode`, `lastEmittedSpace`, `lastTokenIsDefine` and `parenCount`, ends
with `r`. `translateLoop_run` and `run_translateLoop` show that this is the loop. -/

/-- The runs of the loop of `translate`, one rule per way through the loop body. -/
inductive Run : List lex_token → String → TokenMapper → Bool → Bool → Bool → Int → Outcome →
    Prop where
  | nil (output : String) (mapper : TokenMapper) (mode les ltd : Bool) (pc : Int) :
      Run [] output mapper mode les ltd pc Outcome.pastEnd
  | eof (token : lex_token) (iter : List lex_token) (output : String) (mapper : TokenMapper)
      (mode les ltd : Bool) (pc : Int) (h1 : (token.id == T_EOF) = true) :
      Run (token :: iter) output mapper mode les ltd pc (Outcome.returned iter output mapper)
  | lookPastEnd (token : lex_token) (iter : List lex_token) (output : String)
      (mapper : TokenMapper) (mode les ltd : Bool) (pc : Int)
      (h1 : (token.id == T_EOF) = false) (h2 : isWordLike token = true)
      (h3 : callLookahead token iter = none) :
      Run (token :: iter) output mapper mode les ltd pc Outcome.pastEnd
  | fusedPastEnd (token : lex_token) (iter : List lex_token) (output : String)
      (mapper : TokenMapper) (mode les ltd : Bool) (pc : Int)
      (h1 : (token.id == T_EOF) = false) (h2 : isWordLike token = true)
      (h3 : callLookahead token iter = some true)
      (hn : Run iter "" mapper true false true 0 Outcome.pastEnd) :
      Run (token :: iter) output mapper mode les ltd pc Outcome.pastEnd
  | fused (token : lex_token) (iter : List lex_token) (output : String)
      (mapper : TokenMapper) (mode les ltd : Bool) (pc : Int)
      (iter1 : List lex_token) (newoutput : String) (mapper1 : TokenMapper) (r : Outcome)
      (h1 : (token.id == T_EOF) = false) (h2 : isWordLike token = true)
      (h3 : callLookahead token iter = some true)
      (hn : Run iter "" mapper true false true 0 (Outcome.returned iter1 newoutput mapper1))
      (hc : Run iter1
        (fusedStep token ltd (withSeparator output les (passThroughOf mode token))
          newoutput mapper1).1
        (fusedStep token ltd (withSeparator output les (passThroughOf mode token))
          newoutput mapper1).2 mode false false pc r) :
      Run (token :: iter) output mapper mode les ltd pc r
  | wordReturn (token : lex_token) (iter : List lex_token) (output : String)
      (mapper : TokenMapper) (mode les ltd : Bool) (pc : Int)
      (h1 : (token.id == T_EOF) = false) (h2 : isWordLike token = true)
      (h3 : callLookahead token iter = some false)
      (h4 : (mode && token.id == T_RIGHTPAREN) = true)
      (h5 : parenStep mode token pc - 1 = 0) :
      Run (token :: iter) output mapper mode les ltd pc
        (Outcome.returned iter
          (wordStep token ltd (passThroughOf mode token)
            (withSeparator output les (passThroughOf mode token)) mapper).1
          (wordStep token ltd (passThroughOf mode token)
            (withSeparator output les (passThroughOf mode token)) mapper).2)
  | wordClose (token : lex_token) (iter : List lex_token) (output : String)
      (mapper : TokenMapper) (mode les ltd : Bool) (pc : Int) (r : Outcome)
      (h1 : (token.id == T_EOF) = false) (h2 : isWordLike token = true)
      (h3 : callLookahead token iter = some false)
      (h4 : (mode && token.id == T_RIGHTPAREN) = true)
      (h5 : ¬ parenStep mode token pc - 1 = 0)
      (hc : Run iter
        (wordStep token ltd (passThroughOf mode token)
          (withSeparator output les (passThroughOf mode token)) mapper).1
        (wordStep token ltd (passThroughOf mode token)
          (withSeparator output les (passThroughOf mode token)) mapper).2
        mode false false (parenStep mode token pc - 1) r) :
      Run (token :: iter) output mapper mode les ltd pc r
  | word (token : lex_token) (iter : List lex_token) (output : String)
      (mapper : TokenMapper) (mode les ltd : Bool) (pc : Int) (r : Outcome)
      (h1 : (token.id == T_EOF) = false) (h2 : isWordLike token = true)
      (h3 : callLookahead token iter = some false)
      (h4 : (mode && token.id == T_RIGHTPAREN) = false)
      (hc : Run iter
        (wordStep token ltd (passThroughOf mode token)
          (withSeparator output les (passThroughOf mode token)) mapper).1
        (wordStep token ltd (passThroughOf mode token)
          (withSeparator output les (passThroughOf mode token)) mapper).2
        mode false false (parenStep mode token pc) r) :
      Run (token :: iter) output mapper mode les ltd pc r
  | plain (token : lex_token) (iter : List lex_token) (output : String)
      (mapper : TokenMapper) (mode les ltd : Bool) (pc : Int) (r : Outcome)
      (h1 : (token.id == T_EOF) = false) (h2 : isWordLike token = false)
      (hc : Run iter (plainStep token mode output les ltd).1 mapper mode
        (plainStep token mode output les ltd).2.1 (plainStep token mode output les ltd).2.2
        pc r) :
      Run (token :: iter) output mapper mode les ltd pc r

/-! ## Streams without comments (specification side) -/

/-- A line comment or block comment token. -/
def isComment (token : lex_token) : Bool :=
  token.id == T_CCOMMENT || token.id == T_CPPCOMMENT

/-- The stream with every comment token deleted. -/
def dropComments (iter : List lex_token) : List lex_token :=
  iter.filter (fun token => !isComment token)

/-- The outcome with the cursor replaced by its image under `f`. -/
def Outcome.mapIter (f : List lex_token → List lex_token) : Outcome → Outcome
  | Outcome.returned iter output mapper => Outcome.returned (f iter) output mapper
  | Outcome.pastEnd => Outcome.pastEnd
  | Outcome.outOfFuel => Outcome.outOfFuel

/-- The body and the alias table a call leaves, when it returns. -/
def Outcome.result : Outcome → Option (String × TokenMapper)
  | Outcome.returned _ output mapper => some (output, mapper)
  | Outcome.pastEnd => none
  | Outcome.outOfFuel => none

/-! ## Concrete streams -/

/-- The preprocessor token `T_PP_PRAGMA`. -/
def T_PP_PRAGMA : token_id := other PPTokenType 0

/-- The tokens of `#define FOO 1`. -/
def defineFoo1 : List lex_token :=
  [⟨T_PP_DEFINE, "#define"⟩, ⟨T_SPACE, " "⟩, ⟨T_IDENTIFIER, "FOO"⟩, ⟨T_SPACE, " "⟩,
    ⟨T_INTLIT, "1"⟩, ⟨T_EOF, ""⟩]

/-- The tokens of `int x = 5;`. -/
def intX5 : List lex_token :=
  [⟨T_INT, "int"⟩, ⟨T_SPACE, " "⟩, ⟨T_IDENTIFIER, "x"⟩, ⟨T_SPACE, " "⟩, ⟨T_ASSIGN, "="⟩,
    ⟨T_SPACE, " "⟩, ⟨T_INTLIT, "5"⟩, ⟨T_SEMICOLON, ";"⟩, ⟨T_EOF, ""⟩]

/-- The tokens of `int`, a whole input of one keyword. -/
def intAlone : List lex_token :=
  [⟨T_INT, "int"⟩, ⟨T_EOF, ""⟩]

/-! ## Macro expansion of the body (specification side) -/

/-- The tokens of `a(b(c))`. -/
def aBC : List lex_token :=
  [⟨T_IDENTIFIER, "a"⟩, ⟨T_LEFTPAREN, "("⟩, ⟨T_IDENTIFIER, "b"⟩, ⟨T_LEFTPAREN, "("⟩,
    ⟨T_IDENTIFIER, "c"⟩, ⟨T_RIGHTPAREN, ")"⟩, ⟨T_RIGHTPAREN, ")"⟩, ⟨T_EOF, ""⟩]

/-- The tokens of `foo(`, an identifier followed by a parenthesis that is never closed. -/
def fooUnclosed : List lex_token :=
  [⟨T_IDENTIFIER, "foo"⟩, ⟨T_LEFTPAREN, "("⟩, ⟨T_EOF, ""⟩]

/-! ## The prologue (specification side) -/

/-- The line that `writeHeader` writes for the pair number `k` with text `t`. -/
def headerLine (k : Nat) (t : String) : String :=
  "#define " ++ aliasOf k ++ " " ++ t ++ "\n"

/-- The lines for the texts `texts`, numbered from `k` on, one after the other. -/
def prologueFrom : Nat → List String → String
  | _, [] => ""
  | k, t :: texts => headerLine k t ++ prologueFrom (k + 1) texts

/-! ## Blocks of plain tokens -/

/-- The output, `lastEmittedSpace` and `lastTokenIsDefine` after the loop body has handled,
one after the other, tokens that are neither the end marker nor word-like. -/
def plainRun (functionCallMode : Bool) : List lex_token → String × Bool × Bool →
    String × Bool × Bool
  | [], s => s
  | token :: iter, s => plainRun functionCallMode iter
      (plainStep token functionCallMode s.1 s.2.1 s.2.2)

/-! ## The start of a fused call (specification side) -/

/-- The cursor right after the `)` that matches the first `(` of a stream, when there is
one before the end marker: `d` counts the parentheses that are open; while none is open
(`d = 0`) only whitespace tokens may stand before the first `(`. -/
def groupEnd : Nat → List lex_token → Option (List lex_token)
  | _, [] => none
  | d, t :: ts =>
    if t.id == T_EOF then none
    else if t.id == T_LEFTPAREN then groupEnd (d + 1) ts
    else if t.id == T_RIGHTPAREN then
      (if d = 0 then none else if d = 1 then some ts else groupEnd (d - 1) ts)
    else if d = 0 then (if IS_CATEGORY t WhiteSpaceTokenType then groupEnd 0 ts else none)
    else groupEnd d ts

/-- The tokens of ` (a((b))) x` with the end marker: a group with nested groups, then
more tokens. -/
def groupStream : List lex_token :=
  [⟨T_SPACE, " "⟩, ⟨T_LEFTPAREN, "("⟩, ⟨T_IDENTIFIER, "a"⟩, ⟨T_LEFTPAREN, "("⟩,
    ⟨T_LEFTPAREN, "("⟩, ⟨T_IDENTIFIER, "b"⟩, ⟨T_RIGHTPAREN, ")"⟩, ⟨T_RIGHTPAREN, ")"⟩,
    ⟨T_RIGHTPAREN, ")"⟩, ⟨T_SPACE, " "⟩, ⟨T_IDENTIFIER, "x"⟩, ⟨T_EOF, ""⟩]

/-! ## Newline-free texts (specification side) -/

/-- Neither an alias of the map nor a text of the pairs holds a newline character. -/
def NoNewlineTable (m : TokenMapper) : Prop :=
  (∀ p ∈ m.tokenMap, '\n' ∉ p.2.data) ∧ (∀ p ∈ m.pairs, '\n' ∉ p.2.data)

/-- Only newline tokens have a text with a newline character. -/
def NewlineOnlyInNewlines (iter : List lex_token) : Prop :=
  ∀ t ∈ iter, t.id ≠ T_NEWLINE → '\n' ∉ t.value.data

/-- The tokens of `(a` newline `b)`: a call group with a line break inside. -/
def groupWithNewline : List lex_token :=
  [⟨T_LEFTPAREN, "("⟩, ⟨T_IDENTIFIER, "a"⟩, ⟨T_NEWLINE, "\n"⟩, ⟨T_IDENTIFIER, "b"⟩,
    ⟨T_RIGHTPAREN, ")"⟩, ⟨T_EOF, ""⟩]

/-! ## Emissions of a run (specification side) -/

theorem digits_data (k : Nat) : (digits k).data = [digitChar k] := by
  unfold digits digitChar
  split_ifs <;> rfl

theorem digits_eq (k : Nat) : digits k = String.mk [digitChar k] := by
  unfold digits digitChar
  split_ifs <;> rfl

theorem isAliasSymbol_digitChar (k : Nat) : isAliasSymbol (digitChar k) = true := by
  unfold digitChar
  split_ifs <;> decide

theorem digitValue_digitChar (k : Nat) (h : k < 4) : digitValue (digitChar k) = k := by
  interval_cases k <;> decide

theorem digitValue_lt (c : Char) : digitValue c < 4 := by
  unfold digitValue
  split_ifs <;> omega

theorem digitChar_digitValue (c : Char) (h : isAliasSymbol c = true) :
    digitChar (digitValue c) = c := by
  unfold isAliasSymbol at h
  simp only [Bool.or_eq_true, beq_iff_eq] at h
  rcases h with ((h | h) | h) | h <;> subst h <;> decide

theorem decodeFrom_append (acc : Nat) (l r : List Char) :
    decodeFrom acc (l ++ r) = decodeFrom (decodeFrom acc l) r := by
  simp [decodeFrom, List.foldl_append]

theorem and3_eq_mod (n : Nat) : n &&& 0x3 = n % 4 :=
  Nat.and_pow_two_sub_one_eq_mod n 2

theorem shr2_eq_div (n : Nat) : n >>> 2 = n / 4 :=
  Nat.shiftRight_eq_div_pow n 2

/-- The loop prepends the base-4 symbols of `rem`: every produced character is an alias
symbol, and reading the result gives back `rem` followed by the old content. -/
theorem translateTokenLoop_spec : ∀ (fuel rem : Nat) (outstr : String), rem ≤ fuel →
    ∃ l : List Char, (translateTokenLoop fuel rem outstr).data = l ++ outstr.data ∧
      l.all isAliasSymbol = true ∧ (∀ acc, decodeFrom acc l = acc * 4 ^ l.length + rem) ∧
      (rem ≠ 0 → l.head? ≠ some (digitChar 0) ∧ l ≠ []) ∧ (rem = 0 → l = [])
  | 0, rem, outstr, h => by
    have : rem = 0 := by omega
    subst this
    exact ⟨[], by simp [translateTokenLoop], rfl, by simp [decodeFrom], by simp, by simp⟩
  | fuel + 1, rem, outstr, h => by
    by_cases h0 : rem = 0
    · subst h0
      exact ⟨[], by simp [translateTokenLoop], rfl, by simp [decodeFrom], by simp, by simp⟩
    · have hlt : rem / 4 ≤ fuel := by omega
      obtain ⟨l, hl, hall, hdec, hhead, hnil⟩ :=
        translateTokenLoop_spec fuel (rem / 4) (digits (rem % 4) ++ outstr) hlt
      refine ⟨l ++ [digitChar (rem % 4)], ?_, ?_, ?_, ?_, ?_⟩
      · simp only [translateTokenLoop, bne_iff_ne, ne_eq, h0, not_false_eq_true, ↓reduceIte,
          and3_eq_mod, shr2_eq_div, hl, String.data_append, digits_data]
        simp
      · simp [List.all_append, hall, isAliasSymbol_digitChar]
      · intro acc
        rw [decodeFrom_append, hdec]
        simp only [decodeFrom, List.foldl_cons, List.foldl_nil, List.length_append,
          List.length_singleton]
        rw [digitValue_digitChar _ (Nat.mod_lt _ (by norm_num))]
        have := Nat.div_add_mod rem 4
        rw [pow_succ]
        nlinarith [this]
      · intro _
        refine ⟨?_, by simp⟩
        by_cases hq : rem / 4 = 0
        · have hl0 := hnil hq
          subst hl0
          have hm : rem % 4 ≠ 0 := by omega
          have hm4 := Nat.mod_lt rem (show 4 > 0 by norm_num)
          simp only [List.nil_append, List.head?_cons, ne_eq, Option.some.injEq]
          intro hc
          have := congrArg digitValue hc
          rw [digitValue_digitChar _ hm4, digitValue_digitChar 0 (by norm_num)] at this
          exact hm this
        · obtain ⟨hh, hne⟩ := hhead hq
          cases l with
          | nil => exact absurd rfl hne
          | cons a t => simpa using hh
      · intro h; exact absurd h h0

theorem decodeFrom_eq_ofDigits (l : List Char) : ∀ acc : Nat,
    decodeFrom acc l = acc * 4 ^ l.length + Nat.ofDigits 4 (l.reverse.map digitValue) := by
  induction l with
  | nil => intro acc; simp [decodeFrom]
  | cons c t ih =>
    intro acc
    have h : decodeFrom acc (c :: t) = decodeFrom (4 * acc + digitValue c) t := rfl
    rw [h, ih]
    simp only [List.reverse_cons, List.map_append, List.map_cons, List.map_nil,
      Nat.ofDigits_append, List.length_map, List.length_reverse, Nat.ofDigits_singleton,
      List.length_cons]
    ring

theorem canonical_unique (l r : List Char) (hl : l.all isAliasSymbol = true)
    (hr : r.all isAliasSymbol = true) (nl : l.head? ≠ some (digitChar 0))
    (nr : r.head? ≠ some (digitChar 0)) (hv : decodeFrom 0 l = decodeFrom 0 r) : l = r := by
  have key : ∀ m : List Char, m.all isAliasSymbol = true → m.head? ≠ some (digitChar 0) →
      Nat.digits 4 (decodeFrom 0 m) = m.reverse.map digitValue := by
    intro m hm nm
    rw [decodeFrom_eq_ofDigits]
    simp only [zero_mul, zero_add]
    apply Nat.digits_ofDigits 4 (by norm_num)
    · intro d hd
      simp only [List.mem_map] at hd
      obtain ⟨c, _, rfl⟩ := hd
      exact digitValue_lt c
    · intro hne
      cases m with
      | nil => simp at hne
      | cons c t =>
        simp only [List.reverse_cons, List.map_append, List.map_cons, List.map_nil, ne_eq,
          List.getLast_append_singleton] 
        intro h0
        apply nm
        have hc : isAliasSymbol c = true := by
          simp only [List.all_cons, Bool.and_eq_true] at hm
          exact hm.1
        have := digitChar_digitValue c hc
        rw [h0] at this
        simp [this]
  have e : l.reverse.map digitValue = r.reverse.map digitValue := by
    rw [← key l hl nl, ← key r hr nr, hv]
  have e2 : l.map digitValue = r.map digitValue := by
    have := congrArg List.reverse e
    simpa [List.map_reverse] using this
  have back : ∀ m : List Char, m.all isAliasSymbol = true →
      (m.map digitValue).map digitChar = m := by
    intro m hm
    induction m with
    | nil => rfl
    | cons c t ih =>
      simp only [List.all_cons, Bool.and_eq_true] at hm
      simp only [List.map_cons, digitChar_digitValue c hm.1, ih hm.2]
  rw [← back l hl, ← back r hr, e2]

theorem translateToken_fst_zero (self : TokenMapper) (t : String) (h : self.curid = 0) :
    (self.translateToken t).1 = digits 0 := by
  simp [TokenMapper.translateToken, h, aliasPrefix]

theorem translateToken_fst_pos (self : TokenMapper) (t : String) (h : self.curid ≠ 0) :
    ∃ l : List Char, (self.translateToken t).1 = String.mk l ∧ l.all isAliasSymbol = true ∧
      decodeFrom 0 l = self.curid ∧ l.head? ≠ some (digitChar 0) ∧ l ≠ [] := by
  obtain ⟨l, hl, hall, hdec, hhead, _⟩ := translateTokenLoop_spec self.curid self.curid "" le_rfl
  refine ⟨l, ?_, hall, by simpa using hdec 0, (hhead h).1, (hhead h).2⟩
  simp only [TokenMapper.translateToken, beq_iff_eq, h, ↓reduceIte, aliasPrefix]
  apply String.ext
  simpa using hl

theorem translateToken_snd (self : TokenMapper) (t : String) :
    (self.translateToken t).2 = { self with curid := self.curid + 1 } := by
  simp only [TokenMapper.translateToken]
  split_ifs <;> rfl

theorem decodeAlias_translateToken (self : TokenMapper) (t : String) :
    decodeAlias (self.translateToken t).1 = some self.curid := by
  by_cases h : self.curid = 0
  · rw [translateToken_fst_zero self t h, h]; decide
  · obtain ⟨l, hl, hall, hdec, _, _⟩ := translateToken_fst_pos self t h
    rw [hl]
    simp [decodeAlias, hall, hdec]

/-- C3. Reading the alias generated for counter value `n` as a base-4 numeral, most
significant symbol first, gives back `n`; so different counter values give different
aliases. -/
theorem translateToken_decodes (self : TokenMapper) (inputToken : String) :
    decodeAlias (self.translateToken inputToken).1 = some self.curid ∧
      ∀ (that : TokenMapper) (thatToken : String), that.curid ≠ self.curid →
        (that.translateToken thatToken).1 ≠ (self.translateToken inputToken).1 := by
  refine ⟨decodeAlias_translateToken self inputToken, ?_⟩
  intro that thatToken hne heq
  have h1 := decodeAlias_translateToken self inputToken
  have h2 := decodeAlias_translateToken that thatToken
  rw [heq, h1] at h2
  exact hne (Option.some.inj h2).symm

theorem translateToken_canonical (self : TokenMapper) (t : String) :
    isCanonicalAlias (self.translateToken t).1 := by
  by_cases h : self.curid = 0
  · rw [translateToken_fst_zero self t h]
    exact ⟨by decide, by decide, Or.inl rfl⟩
  · obtain ⟨l, hl, hall, _, hhead, hne⟩ := translateToken_fst_pos self t h
    rw [hl]
    exact ⟨hne, hall, Or.inr hhead⟩

theorem translateToken_fst_eq (self : TokenMapper) (t : String) :
    (self.translateToken t).1 = aliasOf self.curid := by
  simp only [TokenMapper.translateToken, aliasOf]
  split_ifs <;> rfl

theorem aliasOf_injective : Function.Injective aliasOf := by
  intro i j h
  have hi := decodeAlias_translateToken { curid := i } ""
  have hj := decodeAlias_translateToken { curid := j } ""
  unfold aliasOf at h
  rw [h, hj] at hi
  exact (Option.some.inj hi).symm

theorem lookup_mapAssign_self (tm : List (String × String)) (k v : String) :
    (mapAssign tm k v).lookup k = some v := by
  induction tm with
  | nil => simp [mapAssign, List.lookup]
  | cons p rest ih =>
    obtain ⟨a, b⟩ := p
    by_cases h : a = k
    · subst h; simp [mapAssign, List.lookup]
    · have h2 : (k == a) = false := by simpa using fun e => h e.symm
      simp [mapAssign, h, List.lookup, h2, ih]

theorem lookup_mapAssign_ne (tm : List (String × String)) (k v k2 : String) (hne : k2 ≠ k) :
    (mapAssign tm k v).lookup k2 = tm.lookup k2 := by
  induction tm with
  | nil =>
    have : (k2 == k) = false := by simpa using hne
    simp [mapAssign, List.lookup, this]
  | cons p rest ih =>
    obtain ⟨a, b⟩ := p
    by_cases h : a = k
    · subst h
      have : (k2 == a) = false := by simpa using hne
      simp [mapAssign, List.lookup, this]
    · by_cases h3 : k2 = a
      · subst h3; simp [mapAssign, h, List.lookup]
      · have : (k2 == a) = false := by simpa using h3
        simp [mapAssign, h, List.lookup, this, ih]

theorem mapAssign_absent (tm : List (String × String)) (k v : String)
    (h : tm.lookup k = none) : mapAssign tm k v = tm ++ [(k, v)] := by
  induction tm with
  | nil => rfl
  | cons p rest ih =>
    obtain ⟨a, b⟩ := p
    by_cases h2 : k = a
    · subst h2; simp [List.lookup] at h
    · have h3 : (k == a) = false := by simpa using h2
      have h4 : ¬ a = k := fun e => h2 e.symm
      simp only [List.lookup, h3] at h
      simp [mapAssign, h4, ih h]

theorem mapCount_eq_zero (tm : List (String × String)) (k : String) :
    mapCount tm k = 0 ↔ tm.lookup k = none := by
  unfold mapCount
  cases tm.lookup k <;> simp

theorem mapToken_present (m : TokenMapper) (t a : String) (h : m.tokenMap.lookup t = some a) :
    m.mapToken t = (a, m) := by
  have hc : mapCount m.tokenMap t ≠ 0 := by
    rw [Ne, mapCount_eq_zero, h]; simp
  simp [TokenMapper.mapToken, hc, mapAt, h]

theorem mapToken_absent (m : TokenMapper) (t : String) (h : m.tokenMap.lookup t = none) :
    m.mapToken t = (aliasOf m.curid,
      { pairs := m.pairs ++ [(aliasOf m.curid, t)],
        tokenMap := m.tokenMap ++ [(t, aliasOf m.curid)],
        curid := m.curid + 1 }) := by
  have hc : mapCount m.tokenMap t = 0 := (mapCount_eq_zero _ _).2 h
  simp only [TokenMapper.mapToken, hc, beq_self_eq_true, ↓reduceIte, translateToken_snd,
    translateToken_fst_eq, mapAt, lookup_mapAssign_self, Option.getD_some]
  rw [mapAssign_absent _ _ _ h]

theorem mapToken_lookup_self (m : TokenMapper) (t : String) :
    (m.mapToken t).2.tokenMap.lookup t = some (m.mapToken t).1 := by
  cases h : m.tokenMap.lookup t with
  | some a => rw [mapToken_present m t a h]; exact h
  | none =>
    have hc : mapCount m.tokenMap t = 0 := (mapCount_eq_zero _ _).2 h
    simp only [TokenMapper.mapToken, hc, beq_self_eq_true, ↓reduceIte, translateToken_snd,
      translateToken_fst_eq, mapAt, lookup_mapAssign_self, Option.getD_some]

theorem mapToken_lookup_mono (m : TokenMapper) (t k a : String)
    (h : m.tokenMap.lookup k = some a) : (m.mapToken t).2.tokenMap.lookup k = some a := by
  cases ht : m.tokenMap.lookup t with
  | some b => rw [mapToken_present m t b ht]; exact h
  | none =>
    have hne : k ≠ t := by
      intro e; rw [e, ht] at h; simp at h
    have hc : mapCount m.tokenMap t = 0 := (mapCount_eq_zero _ _).2 ht
    simp only [TokenMapper.mapToken, hc, beq_self_eq_true, ↓reduceIte, translateToken_snd,
      lookup_mapAssign_ne _ _ _ _ hne, h]

theorem resolveAll_lookup_mono (ts : List String) : ∀ (m : TokenMapper) (k a : String),
    m.tokenMap.lookup k = some a → (resolveAll ts m).tokenMap.lookup k = some a := by
  induction ts with
  | nil => intro m k a h; exact h
  | cons t ts ih =>
    intro m k a h
    exact ih _ k a (mapToken_lookup_mono m t k a h)

theorem mapToken_pairs_mono (m : TokenMapper) (t : String) :
    m.pairs <+: (m.mapToken t).2.pairs := by
  cases h : m.tokenMap.lookup t with
  | some a => rw [mapToken_present m t a h]
  | none => rw [mapToken_absent m t h]; exact List.prefix_append _ _

theorem lookup_swap_none (ps : List (String × String)) (k : String) :
    (ps.map Prod.swap).lookup k = none ↔ k ∉ ps.map Prod.snd := by
  induction ps with
  | nil => simp [List.lookup]
  | cons p rest ih =>
    obtain ⟨a, b⟩ := p
    by_cases h : k = b
    · subst h; simp [List.lookup]
    · have h2 : (k == b) = false := by simpa using h
      simp [List.lookup, h2, ih, h]

theorem lookup_swap_some (ps : List (String × String)) (k a : String)
    (h : (ps.map Prod.swap).lookup k = some a) : (a, k) ∈ ps := by
  induction ps with
  | nil => simp [List.lookup] at h
  | cons p rest ih =>
    obtain ⟨x, y⟩ := p
    by_cases hk : k = y
    · subst hk
      simp only [List.map_cons, Prod.swap_prod_mk, List.lookup, beq_self_eq_true,
        Option.some.injEq] at h
      subst h; simp
    · have h2 : (k == y) = false := by simpa using hk
      simp only [List.map_cons, Prod.swap_prod_mk, List.lookup, h2] at h
      exact List.mem_cons_of_mem _ (ih h)

theorem lookup_swap_of_mem (ps : List (String × String)) (hnd : (ps.map Prod.snd).Nodup)
    (a k : String) (h : (a, k) ∈ ps) : (ps.map Prod.swap).lookup k = some a := by
  induction ps with
  | nil => simp at h
  | cons p rest ih =>
    obtain ⟨x, y⟩ := p
    simp only [List.map_cons, List.nodup_cons] at hnd
    rcases List.mem_cons.1 h with e | hm
    · cases e; simp [List.lookup]
    · have hk : k ≠ y := by
        intro e; subst e
        exact hnd.1 (List.mem_map.2 ⟨(a, k), hm, rfl⟩)
      have h2 : (k == y) = false := by simpa using hk
      simp only [List.map_cons, Prod.swap_prod_mk, List.lookup, h2]
      exact ih hnd.2 hm

theorem TableInv_empty : TableInv {} := by
  refine ⟨rfl, rfl, rfl, ?_⟩
  simp

theorem TableInv_mapToken (m : TokenMapper) (t : String) (h : TableInv m) :
    TableInv (m.mapToken t).2 := by
  obtain ⟨hc, hm, ha, hn⟩ := h
  cases hl : m.tokenMap.lookup t with
  | some a => rw [mapToken_present m t a hl]; exact ⟨hc, hm, ha, hn⟩
  | none =>
    rw [mapToken_absent m t hl]
    have hnot : t ∉ m.pairs.map Prod.snd := by
      rw [hm] at hl; exact (lookup_swap_none _ _).1 hl
    refine ⟨by simp [hc], by simp [hm], ?_, ?_⟩
    · simp [List.range_succ, ha, hc]
    · simp only [List.map_append, List.map_cons, List.map_nil]
      rw [List.nodup_append]
      refine ⟨hn, by simp, ?_⟩
      intro x hx hx2
      simp only [List.mem_singleton] at hx2
      subst hx2
      exact hnot hx

theorem TableInv_resolveAll (ts : List String) : ∀ m : TokenMapper, TableInv m →
    TableInv (resolveAll ts m) := by
  induction ts with
  | nil => intro m h; exact h
  | cons t ts ih => intro m h; exact ih _ (TableInv_mapToken m t h)

theorem TableInv_injective (m : TokenMapper) (h : TableInv m) (k1 k2 a : String)
    (h1 : m.tokenMap.lookup k1 = some a) (h2 : m.tokenMap.lookup k2 = some a) : k1 = k2 := by
  obtain ⟨_, hm, ha, _⟩ := h
  rw [hm] at h1 h2
  have m1 := lookup_swap_some _ _ _ h1
  have m2 := lookup_swap_some _ _ _ h2
  obtain ⟨i, hi, e1⟩ := List.getElem_of_mem m1
  obtain ⟨j, hj, e2⟩ := List.getElem_of_mem m2
  have hi2 : i < (m.pairs.map Prod.fst).length := by simpa using hi
  have hj2 : j < (m.pairs.map Prod.fst).length := by simpa using hj
  have f1 : (m.pairs.map Prod.fst)[i] = a := by simp [e1]
  have f2 : (m.pairs.map Prod.fst)[j] = a := by simp [e2]
  simp only [ha, List.getElem_map, List.getElem_range] at f1 f2
  have hij : i = j := aliasOf_injective (f1.trans f2.symm)
  subst hij
  rw [e1] at e2
  exact (Prod.mk.inj e2).2

theorem resolveAll_keys (ts : List String) : ∀ m : TokenMapper, TableInv m →
    (resolveAll ts m).pairs.map Prod.snd =
      m.pairs.map Prod.snd ++ (firstSeen ts).filter (fun u => decide (u ∉ m.pairs.map Prod.snd)) := by
  induction ts with
  | nil => intro m _; simp [resolveAll, firstSeen]
  | cons t ts ih =>
    intro m h
    have hstep : resolveAll (t :: ts) m = resolveAll ts (m.mapToken t).2 := rfl
    rw [hstep, ih _ (TableInv_mapToken m t h)]
    obtain ⟨hc, hm, ha, hn⟩ := h
    cases hl : m.tokenMap.lookup t with
    | some a =>
      rw [mapToken_present m t a hl]
      have hin : t ∈ m.pairs.map Prod.snd := by
        have := lookup_swap_some _ _ _ (hm ▸ hl)
        exact List.mem_map.2 ⟨(a, t), this, rfl⟩
      simp only [firstSeen, List.filter_cons, hin, not_true_eq_false, decide_False,
        Bool.false_eq_true, ↓reduceIte, List.filter_filter, List.append_cancel_left_eq]
      apply List.filter_congr
      intro u _
      by_cases hu : u ∈ m.pairs.map Prod.snd
      · simp [hu]
      · have : u ≠ t := fun e => hu (e ▸ hin)
        simp [hu, this]
    | none =>
      rw [mapToken_absent m t hl]
      have hnot : t ∉ m.pairs.map Prod.snd := by
        rw [hm] at hl; exact (lookup_swap_none _ _).1 hl
      simp only [List.map_append, List.map_cons, List.map_nil, firstSeen, List.filter_cons,
        hnot, not_false_eq_true, decide_True, ↓reduceIte, List.filter_filter,
        List.append_assoc, List.singleton_append, List.append_cancel_left_eq, List.cons.injEq,
        true_and]
      apply List.filter_congr
      intro u _
      by_cases hu : u ∈ m.pairs.map Prod.snd
      · simp [hu]
      · by_cases hut : u = t
        · simp [hut]
        · simp [hu, hut]

/-- C5. Once `mapToken t` has returned an alias, every later `mapToken t` returns the
same alias, whatever texts are resolved in between (from any table state, so in
particular from every state reached from the empty table); and `mapToken t` on a
table that has `t` as a key leaves the map, the pairs and the counter unchanged. -/
theorem mapToken_cached (m : TokenMapper) (t : String) (between : List String) :
    ((resolveAll between (m.mapToken t).2).mapToken t).1 = (m.mapToken t).1 ∧
      ((resolveAll between (m.mapToken t).2).mapToken t).2 = resolveAll between (m.mapToken t).2 ∧
      (mapCount m.tokenMap t ≠ 0 → (m.mapToken t).2 = m) := by
  have h := resolveAll_lookup_mono between _ t _ (mapToken_lookup_self m t)
  refine ⟨?_, ?_, ?_⟩
  · rw [mapToken_present _ t _ h]
  · rw [mapToken_present _ t _ h]
  · intro hc
    cases hl : m.tokenMap.lookup t with
    | some a => rw [mapToken_present m t a hl]
    | none => exact absurd ((mapCount_eq_zero _ _).2 hl) hc

/-- C6. In every table state reached from the empty table by `mapToken` calls on the
texts `ts`: distinct keys have distinct aliases, the pairs hold no text twice, a text
is a key exactly when it has a pair, every pair agrees with the map, the texts of the
pairs are the distinct texts of `ts` in order of first occurrence, and one more call
keeps every pair in place and every key at its alias. -/
theorem table_invariant (ts : List String) :
    (∀ k1 k2 a : String, (resolveAll ts {}).tokenMap.lookup k1 = some a →
      (resolveAll ts {}).tokenMap.lookup k2 = some a → k1 = k2) ∧
    ((resolveAll ts {}).pairs.map Prod.snd).Nodup ∧
    (∀ k : String, mapCount (resolveAll ts {}).tokenMap k ≠ 0 ↔
      k ∈ (resolveAll ts {}).pairs.map Prod.snd) ∧
    (∀ p ∈ (resolveAll ts {}).pairs, (resolveAll ts {}).tokenMap.lookup p.2 = some p.1) ∧
    (resolveAll ts {}).pairs.map Prod.snd = firstSeen ts ∧
    (∀ t : String, (resolveAll ts {}).pairs <+: ((resolveAll ts {}).mapToken t).2.pairs ∧
      ∀ k a : String, (resolveAll ts {}).tokenMap.lookup k = some a →
        ((resolveAll ts {}).mapToken t).2.tokenMap.lookup k = some a) := by
  have hinv := TableInv_resolveAll ts {} TableInv_empty
  refine ⟨TableInv_injective _ hinv, hinv.2.2.2, ?_, ?_, ?_, ?_⟩
  · intro k
    rw [Ne, mapCount_eq_zero, hinv.2.1, lookup_swap_none]
    simp
  · intro p hp
    rw [hinv.2.1]
    exact lookup_swap_of_mem _ hinv.2.2.2 p.1 p.2 hp
  · have := resolveAll_keys ts {} TableInv_empty
    simpa using this
  · intro t
    exact ⟨mapToken_pairs_mono _ t, fun k a h => mapToken_lookup_mono _ t k a h⟩

/-! ## The loop of `translate`, one iteration at a time -/

theorem translateLoop_cons (fuel : Nat) (token : lex_token) (iter : List lex_token)
    (output : String) (mapper : TokenMapper) (mode les ltd : Bool) (pc : Int) :
    translateLoop (fuel + 1) (token :: iter) output mapper mode les ltd pc =
      if token.id == T_EOF then Outcome.returned iter output mapper
      else if isWordLike token then
        match callLookahead token iter with
        | none => Outcome.pastEnd
        | some true =>
          match translateLoop fuel iter "" mapper true false true 0 with
          | Outcome.returned iter1 newoutput mapper1 =>
            translateLoop fuel iter1
              (fusedStep token ltd (withSeparator output les (passThroughOf mode token))
                newoutput mapper1).1
              (fusedStep token ltd (withSeparator output les (passThroughOf mode token))
                newoutput mapper1).2 mode false false pc
          | Outcome.pastEnd => Outcome.pastEnd
          | Outcome.outOfFuel => Outcome.outOfFuel
        | some false =>
          if mode && token.id == T_RIGHTPAREN then
            if parenStep mode token pc - 1 = 0 then
              Outcome.returned iter
                (wordStep token ltd (passThroughOf mode token)
                  (withSeparator output les (passThroughOf mode token)) mapper).1
                (wordStep token ltd (passThroughOf mode token)
                  (withSeparator output les (passThroughOf mode token)) mapper).2
            else
              translateLoop fuel iter
                (wordStep token ltd (passThroughOf mode token)
                  (withSeparator output les (passThroughOf mode token)) mapper).1
                (wordStep token ltd (passThroughOf mode token)
                  (withSeparator output les (passThroughOf mode token)) mapper).2
                mode false false (parenStep mode token pc - 1)
          else
            translateLoop fuel iter
              (wordStep token ltd (passThroughOf mode token)
                (withSeparator output les (passThroughOf mode token)) mapper).1
              (wordStep token ltd (passThroughOf mode token)
                (withSeparator output les (passThroughOf mode token)) mapper).2
              mode false false (parenStep mode token pc)
      else
        translateLoop fuel iter (plainStep token mode output les ltd).1 mapper mode
          (plainStep token mode output les ltd).2.1 (plainStep token mode output les ltd).2.2 pc := by
  rw [translateLoop]
  by_cases h1 : token.id == T_EOF
  · simp only [h1, ↓reduceIte]
  · simp only [h1, Bool.false_eq_true, ↓reduceIte]
    by_cases h2 : isWordLike token
    · simp only [h2, ↓reduceIte, callLookahead, passThroughOf, withSeparator]
      split
      · rfl
      · split
        · rename_i hn
          simp only [hn, fusedStep]
          split <;> rfl
        · rfl
        · rfl
      · simp only [wordStep, parenStep]
        split_ifs <;> rfl
    · simp only [h2, Bool.false_eq_true, ↓reduceIte, plainStep]
      split_ifs <;> rfl

theorem Run_ne_outOfFuel {iter : List lex_token} {output : String} {mapper : TokenMapper}
    {mode les ltd : Bool} {pc : Int} {r : Outcome}
    (h : Run iter output mapper mode les ltd pc r) : r ≠ Outcome.outOfFuel := by
  induction h with
  | nil => simp
  | eof => simp
  | lookPastEnd => simp
  | fusedPastEnd => simp
  | fused _ _ _ _ _ _ _ _ _ _ _ _ _ _ _ _ _ _ ih => exact ih
  | wordReturn => simp
  | wordClose _ _ _ _ _ _ _ _ _ _ _ _ _ _ _ ih => exact ih
  | word _ _ _ _ _ _ _ _ _ _ _ _ _ _ ih => exact ih
  | plain _ _ _ _ _ _ _ _ _ _ _ _ ih => exact ih

/-- A run that returns leaves the cursor strictly further along the stream. -/
theorem Run_length {iter : List lex_token} {output : String} {mapper : TokenMapper}
    {mode les ltd : Bool} {pc : Int} {r : Outcome}
    (h : Run iter output mapper mode les ltd pc r) :
    ∀ iter1 o1 m1, r = Outcome.returned iter1 o1 m1 → iter1.length < iter.length := by
  induction h with
  | nil => intro _ _ _ e; cases e
  | eof => intro _ _ _ e; cases e; simp
  | lookPastEnd => intro _ _ _ e; cases e
  | fusedPastEnd => intro _ _ _ e; cases e
  | fused _ _ _ _ _ _ _ _ _ _ _ _ _ _ _ _ _ ihn ihc =>
    intro a b c e
    have h1 := ihn _ _ _ rfl
    have h2 := ihc a b c e
    simp only [List.length_cons]; omega
  | wordReturn => intro _ _ _ e; cases e; simp
  | wordClose _ _ _ _ _ _ _ _ _ _ _ _ _ _ _ ih =>
    intro a b c e
    have := ih a b c e
    simp only [List.length_cons]; omega
  | word _ _ _ _ _ _ _ _ _ _ _ _ _ _ ih =>
    intro a b c e
    have := ih a b c e
    simp only [List.length_cons]; omega
  | plain _ _ _ _ _ _ _ _ _ _ _ _ ih =>
    intro a b c e
    have := ih a b c e
    simp only [List.length_cons]; omega

/-- With one unit of the recursion bound per token and one more, the loop ends as the
relation says. -/
theorem run_translateLoop {iter : List lex_token} {output : String} {mapper : TokenMapper}
    {mode les ltd : Bool} {pc : Int} {r : Outcome}
    (h : Run iter output mapper mode les ltd pc r) :
    ∀ fuel, iter.length < fuel → translateLoop fuel iter output mapper mode les ltd pc = r := by
  induction h with
  | nil output mapper mode les ltd pc =>
    intro fuel hf
    cases fuel with
    | zero => simp at hf
    | succ f => rfl
  | eof token iter output mapper mode les ltd pc h1 =>
    intro fuel hf
    cases fuel with
    | zero => simp at hf
    | succ f => rw [translateLoop_cons]; simp only [h1, ↓reduceIte]
  | lookPastEnd token iter output mapper mode les ltd pc h1 h2 h3 =>
    intro fuel hf
    cases fuel with
    | zero => simp at hf
    | succ f => rw [translateLoop_cons]; simp only [h1, h2, h3, Bool.false_eq_true, ↓reduceIte]
  | fusedPastEnd token iter output mapper mode les ltd pc h1 h2 h3 _ ihn =>
    intro fuel hf
    cases fuel with
    | zero => simp at hf
    | succ f =>
      rw [translateLoop_cons]
      simp only [List.length_cons, Nat.add_lt_add_iff_right] at hf
      simp only [h1, h2, h3, Bool.false_eq_true, ↓reduceIte, ihn f hf]
  | fused token iter output mapper mode les ltd pc iter1 newoutput mapper1 r h1 h2 h3 hn _ ihn ihc =>
    intro fuel hf
    cases fuel with
    | zero => simp at hf
    | succ f =>
      rw [translateLoop_cons]
      simp only [List.length_cons, Nat.add_lt_add_iff_right] at hf
      have hl := Run_length hn _ _ _ rfl
      simp only [h1, h2, h3, Bool.false_eq_true, ↓reduceIte, ihn f hf, ihc f (by omega)]
  | wordReturn token iter output mapper mode les ltd pc h1 h2 h3 h4 h5 =>
    intro fuel hf
    cases fuel with
    | zero => simp at hf
    | succ f =>
      rw [translateLoop_cons]
      simp only [h1, h2, h3, h4, h5, Bool.false_eq_true, ↓reduceIte]
  | wordClose token iter output mapper mode les ltd pc r h1 h2 h3 h4 h5 _ ih =>
    intro fuel hf
    cases fuel with
    | zero => simp at hf
    | succ f =>
      rw [translateLoop_cons]
      simp only [List.length_cons, Nat.add_lt_add_iff_right] at hf
      simp only [h1, h2, h3, h4, h5, Bool.false_eq_true, ↓reduceIte, ih f hf]
  | word token iter output mapper mode les ltd pc r h1 h2 h3 h4 _ ih =>
    intro fuel hf
    cases fuel with
    | zero => simp at hf
    | succ f =>
      rw [translateLoop_cons]
      simp only [List.length_cons, Nat.add_lt_add_iff_right] at hf
      simp only [h1, h2, h3, h4, Bool.false_eq_true, ↓reduceIte, ih f hf]
  | plain token iter output mapper mode les ltd pc r h1 h2 _ ih =>
    intro fuel hf
    cases fuel with
    | zero => simp at hf
    | succ f =>
      rw [translateLoop_cons]
      simp only [List.length_cons, Nat.add_lt_add_iff_right] at hf
      simp only [h1, h2, Bool.false_eq_true, ↓reduceIte, ih f hf]

/-- The loop is total: with one unit of the recursion bound per token and one more, it
ends with an outcome that the relation describes (so never with `outOfFuel`). -/
theorem translateLoop_run : ∀ (fuel : Nat) (iter : List lex_token) (output : String)
    (mapper : TokenMapper) (mode les ltd : Bool) (pc : Int), iter.length < fuel →
    Run iter output mapper mode les ltd pc
      (translateLoop fuel iter output mapper mode les ltd pc) := by
  intro fuel
  induction fuel with
  | zero => intro iter _ _ _ _ _ _ hf; simp at hf
  | succ f ih =>
    intro iter output mapper mode les ltd pc hf
    cases iter with
    | nil => exact Run.nil _ _ _ _ _ _
    | cons token iter =>
      simp only [List.length_cons, Nat.add_lt_add_iff_right] at hf
      rw [translateLoop_cons]
      cases h1 : token.id == T_EOF with
      | true => simp only [↓reduceIte]; exact Run.eof _ _ _ _ _ _ _ _ h1
      | false =>
        simp only [Bool.false_eq_true, ↓reduceIte]
        cases h2 : isWordLike token with
        | false =>
          simp only [Bool.false_eq_true, ↓reduceIte]
          exact Run.plain _ _ _ _ _ _ _ _ _ h1 h2 (ih _ _ _ _ _ _ _ hf)
        | true =>
          simp only [↓reduceIte]
          cases h3 : callLookahead token iter with
          | none => exact Run.lookPastEnd _ _ _ _ _ _ _ _ h1 h2 h3
          | some b =>
            cases b with
            | true =>
              have hn := ih iter "" mapper true false true 0 hf
              cases hr : translateLoop f iter "" mapper true false true 0 with
              | returned iter1 newoutput mapper1 =>
                rw [hr] at hn
                have hl := Run_length hn _ _ _ rfl
                simp only
                exact Run.fused _ _ _ _ _ _ _ _ _ _ _ _ h1 h2 h3 hn (ih _ _ _ _ _ _ _ (by omega))
              | pastEnd =>
                rw [hr] at hn
                exact Run.fusedPastEnd _ _ _ _ _ _ _ _ h1 h2 h3 hn
              | outOfFuel =>
                rw [hr] at hn
                exact absurd rfl (Run_ne_outOfFuel hn)
            | false =>
              simp only
              cases h4 : (mode && token.id == T_RIGHTPAREN) with
              | true =>
                simp only [↓reduceIte]
                by_cases h5 : parenStep mode token pc - 1 = 0
                · simp only [h5, ↓reduceIte]
                  exact Run.wordReturn _ _ _ _ _ _ _ _ h1 h2 h3 h4 h5
                · simp only [h5, ↓reduceIte]
                  exact Run.wordClose _ _ _ _ _ _ _ _ _ h1 h2 h3 h4 h5 (ih _ _ _ _ _ _ _ hf)
              | false =>
                simp only [Bool.false_eq_true, ↓reduceIte]
                exact Run.word _ _ _ _ _ _ _ _ _ h1 h2 h3 h4 (ih _ _ _ _ _ _ _ hf)

/-! ## Comments -/

theorem translate_eq_of_run {iter : List lex_token} {output : String} {mapper : TokenMapper}
    {mode : Bool} {r : Outcome} (h : Run iter output mapper mode false true 0 r) :
    translate (iter.length + 1) iter output mapper mode = r :=
  run_translateLoop h _ (Nat.lt_succ_self _)

theorem run_translate (iter : List lex_token) (output : String) (mapper : TokenMapper)
    (mode : Bool) :
    Run iter output mapper mode false true 0 (translate (iter.length + 1) iter output mapper mode) :=
  translateLoop_run _ _ _ _ _ _ _ _ (Nat.lt_succ_self _)

/-- The call `translate` always ends: with one unit of the recursion bound per token
and one more it returns or reads past the end, and a larger bound gives the same
outcome. -/
theorem translate_total (iter : List lex_token) (output : String) (mapper : TokenMapper)
    (mode : Bool) :
    translate (iter.length + 1) iter output mapper mode ≠ Outcome.outOfFuel ∧
      ∀ fuel, iter.length < fuel →
        translate fuel iter output mapper mode =
          translate (iter.length + 1) iter output mapper mode :=
  ⟨Run_ne_outOfFuel (run_translate iter output mapper mode),
    fun fuel hf => run_translateLoop (run_translate iter output mapper mode) fuel hf⟩

theorem isComment_facts (token : lex_token) (h : isComment token = true) :
    (token.id == T_EOF) = false ∧ isWordLike token = false ∧
      IS_CATEGORY token WhiteSpaceTokenType = true := by
  obtain ⟨id, value⟩ := token
  cases id <;> simp [isComment] at h <;> simp [isWordLike, IS_CATEGORY, CATEGORY_FROM_TOKEN]

theorem plainStep_comment (token : lex_token) (mode : Bool) (output : String) (les ltd : Bool)
    (h : isComment token = true) : plainStep token mode output les ltd = (output, les, ltd) := by
  unfold isComment at h
  simp [plainStep, h]

theorem nextNonWhitespaceIsLeftParen_dropComments (iter : List lex_token) :
    nextNonWhitespaceIsLeftParen (dropComments iter) = nextNonWhitespaceIsLeftParen iter := by
  induction iter with
  | nil => rfl
  | cons token iter ih =>
    cases h : isComment token with
    | true =>
      have hw := (isComment_facts token h).2.2
      simp only [dropComments, List.filter_cons, h, Bool.not_true, Bool.false_eq_true,
        ↓reduceIte, nextNonWhitespaceIsLeftParen, hw]
      exact ih
    | false =>
      simp only [dropComments, List.filter_cons, h, Bool.not_false, ↓reduceIte,
        nextNonWhitespaceIsLeftParen]
      split
      · exact ih
      · rfl

theorem callLookahead_dropComments (token : lex_token) (iter : List lex_token) :
    callLookahead token (dropComments iter) = callLookahead token iter := by
  simp only [callLookahead, nextNonWhitespaceIsLeftParen_dropComments]

theorem dropComments_cons_keep (token : lex_token) (iter : List lex_token)
    (h : isComment token = false) : dropComments (token :: iter) = token :: dropComments iter := by
  simp [dropComments, List.filter_cons, h]

theorem dropComments_cons_drop (token : lex_token) (iter : List lex_token)
    (h : isComment token = true) : dropComments (token :: iter) = dropComments iter := by
  simp [dropComments, List.filter_cons, h]

theorem isComment_of_wordLike (token : lex_token) (h : isWordLike token = true) :
    isComment token = false := by
  cases hc : isComment token with
  | false => rfl
  | true => rw [(isComment_facts token hc).2.1] at h; cases h

theorem isComment_of_eof (token : lex_token) (h : (token.id == T_EOF) = true) :
    isComment token = false := by
  cases hc : isComment token with
  | false => rfl
  | true => rw [(isComment_facts token hc).1] at h; cases h

/-- A run on a stream is also a run on the stream without its comments, with the same
output and mapper. -/
theorem Run_dropComments {iter : List lex_token} {output : String} {mapper : TokenMapper}
    {mode les ltd : Bool} {pc : Int} {r : Outcome}
    (h : Run iter output mapper mode les ltd pc r) :
    Run (dropComments iter) output mapper mode les ltd pc (r.mapIter dropComments) := by
  induction h with
  | nil output mapper mode les ltd pc => exact Run.nil _ _ _ _ _ _
  | eof token iter output mapper mode les ltd pc h1 =>
    rw [dropComments_cons_keep _ _ (isComment_of_eof token h1)]
    exact Run.eof _ _ _ _ _ _ _ _ h1
  | lookPastEnd token iter output mapper mode les ltd pc h1 h2 h3 =>
    rw [dropComments_cons_keep _ _ (isComment_of_wordLike token h2)]
    exact Run.lookPastEnd _ _ _ _ _ _ _ _ h1 h2 (by rw [callLookahead_dropComments]; exact h3)
  | fusedPastEnd token iter output mapper mode les ltd pc h1 h2 h3 _ ihn =>
    rw [dropComments_cons_keep _ _ (isComment_of_wordLike token h2)]
    exact Run.fusedPastEnd _ _ _ _ _ _ _ _ h1 h2
      (by rw [callLookahead_dropComments]; exact h3) ihn
  | fused token iter output mapper mode les ltd pc iter1 newoutput mapper1 r h1 h2 h3 _ _ ihn ihc =>
    rw [dropComments_cons_keep _ _ (isComment_of_wordLike token h2)]
    exact Run.fused _ _ _ _ _ _ _ _ _ _ _ _ h1 h2
      (by rw [callLookahead_dropComments]; exact h3) ihn ihc
  | wordReturn token iter output mapper mode les ltd pc h1 h2 h3 h4 h5 =>
    rw [dropComments_cons_keep _ _ (isComment_of_wordLike token h2)]
    exact Run.wordReturn _ _ _ _ _ _ _ _ h1 h2
      (by rw [callLookahead_dropComments]; exact h3) h4 h5
  | wordClose token iter output mapper mode les ltd pc r h1 h2 h3 h4 h5 _ ih =>
    rw [dropComments_cons_keep _ _ (isComment_of_wordLike token h2)]
    exact Run.wordClose _ _ _ _ _ _ _ _ _ h1 h2
      (by rw [callLookahead_dropComments]; exact h3) h4 h5 ih
  | word token iter output mapper mode les ltd pc r h1 h2 h3 h4 _ ih =>
    rw [dropComments_cons_keep _ _ (isComment_of_wordLike token h2)]
    exact Run.word _ _ _ _ _ _ _ _ _ h1 h2
      (by rw [callLookahead_dropComments]; exact h3) h4 ih
  | plain token iter output mapper mode les ltd pc r h1 h2 _ ih =>
    cases hc : isComment token with
    | true =>
      rw [dropComments_cons_drop _ _ hc]
      rw [plainStep_comment _ _ _ _ _ hc] at ih
      exact ih
    | false =>
      rw [dropComments_cons_keep _ _ hc]
      exact Run.plain _ _ _ _ _ _ _ _ _ h1 h2 ih

theorem translate_dropComments (iter : List lex_token) (output : String) (mapper : TokenMapper)
    (mode : Bool) :
    translate ((dropComments iter).length + 1) (dropComments iter) output mapper mode =
      (translate (iter.length + 1) iter output mapper mode).mapIter dropComments :=
  translate_eq_of_run (Run_dropComments (run_translate iter output mapper mode))

/-- C7. Comments are transparent: in either mode, from any output and mapper,
`translate` on a stream with its comment tokens deleted ends as on the stream itself,
with the same body and the same alias table (the cursor is the old one without its
comments); so two streams that differ only in their comment tokens give the same body
and the same alias table. -/
theorem comment_transparent (iter : List lex_token) (output : String) (mapper : TokenMapper)
    (mode : Bool) :
    translate ((dropComments iter).length + 1) (dropComments iter) output mapper mode =
      (translate (iter.length + 1) iter output mapper mode).mapIter dropComments ∧
    (bleach (dropComments iter)).result = (bleach iter).result ∧
    ∀ iter2 : List lex_token, dropComments iter2 = dropComments iter →
      (translate (iter2.length + 1) iter2 output mapper mode).result =
        (translate (iter.length + 1) iter output mapper mode).result := by
  have key : ∀ r : Outcome, (r.mapIter dropComments).result = r.result := by
    intro r; cases r <;> rfl
  refine ⟨translate_dropComments iter output mapper mode, ?_, ?_⟩
  · unfold bleach
    rw [translate_dropComments, key]
  · intro iter2 h
    rw [← key (translate (iter2.length + 1) iter2 output mapper mode),
      ← key (translate (iter.length + 1) iter output mapper mode),
      ← translate_dropComments, ← translate_dropComments, h]

/-! ## Single steps of the loop, and the scenarios -/

theorem c_str_eq_self (s : String) (h : Char.ofNat 0 ∉ s.data) : c_str s = s := by
  unfold c_str
  apply String.ext
  simp only
  rw [List.takeWhile_eq_self_iff]
  intro c hc
  simp only [bne_iff_ne, ne_eq]
  intro e
  exact h (e ▸ hc)

theorem mapToken_empty (t : String) :
    TokenMapper.mapToken {} t =
      (aliasOf 0, { pairs := [(aliasOf 0, t)], tokenMap := [(t, aliasOf 0)], curid := 1 }) := by
  rw [mapToken_absent _ _ (by rfl)]
  rfl

theorem wordLike_facts (token : lex_token) (h : isWordLike token = true) :
    (token.id == T_EOF) = false ∧ IS_CATEGORY token WhiteSpaceTokenType = false ∧
      (token.id == T_NEWLINE) = false ∧ (token.id == T_PP_DEFINE) = false := by
  obtain ⟨id, value⟩ := token
  cases id <;> simp [isWordLike, IS_CATEGORY, CATEGORY_FROM_TOKEN] at h ⊢
  rcases h with ((((((h | h) | h) | h) | h) | h) | h) | h <;> subst h <;> decide

theorem whitespace_facts (token : lex_token) (h : IS_CATEGORY token WhiteSpaceTokenType = true) :
    (token.id == T_EOF) = false ∧ isWordLike token = false ∧
      (token.id == T_NEWLINE) = false ∧ (token.id == T_LEFTPAREN) = false := by
  obtain ⟨id, value⟩ := token
  cases id <;> simp [isWordLike, IS_CATEGORY, CATEGORY_FROM_TOKEN] at h ⊢
  subst h; decide

theorem identifier_facts (token : lex_token) (h : IS_CATEGORY token IdentifierTokenType = true) :
    isWordLike token = true ∧ (token.id != T_EOF) = true ∧
      (∀ mode, passThroughOf mode token = false) ∧ (token.id == T_RIGHTPAREN) = false ∧
      (token.id == T_LEFTPAREN) = false := by
  obtain ⟨id, value⟩ := token
  cases id <;> simp [isWordLike, IS_CATEGORY, CATEGORY_FROM_TOKEN, passThroughOf] at h ⊢
  subst h; decide

theorem plainStep_whitespace (token : lex_token) (mode : Bool) (output : String)
    (les ltd : Bool) (h : IS_CATEGORY token WhiteSpaceTokenType = true) :
    plainStep token mode output les ltd =
      if isComment token then (output, les, ltd) else (output ++ " ", true, ltd) := by
  have hn := (whitespace_facts token h).2.2.1
  unfold isComment
  simp only [plainStep, hn, h, Bool.false_eq_true, ↓reduceIte]

theorem plainStep_define (token : lex_token) (mode : Bool) (output : String) (les ltd : Bool)
    (h : token.id = T_PP_DEFINE) :
    plainStep token mode output les ltd = (output ++ token.value, false, true) := by
  simp [plainStep, h, IS_CATEGORY, CATEGORY_FROM_TOKEN]

theorem translateLoop_eof (fuel : Nat) (token : lex_token) (iter : List lex_token)
    (output : String) (mapper : TokenMapper) (mode les ltd : Bool) (pc : Int)
    (h1 : token.id = T_EOF) :
    translateLoop (fuel + 1) (token :: iter) output mapper mode les ltd pc =
      Outcome.returned iter output mapper := by
  rw [translateLoop_cons]; simp [h1]

theorem translateLoop_plain (fuel : Nat) (token : lex_token) (iter : List lex_token)
    (output : String) (mapper : TokenMapper) (mode les ltd : Bool) (pc : Int)
    (h1 : (token.id == T_EOF) = false) (h2 : isWordLike token = false) :
    translateLoop (fuel + 1) (token :: iter) output mapper mode les ltd pc =
      translateLoop fuel iter (plainStep token mode output les ltd).1 mapper mode
        (plainStep token mode output les ltd).2.1 (plainStep token mode output les ltd).2.2 pc := by
  rw [translateLoop_cons]; simp only [h1, h2, Bool.false_eq_true, ↓reduceIte]

theorem translateLoop_word (fuel : Nat) (token : lex_token) (iter : List lex_token)
    (output : String) (mapper : TokenMapper) (mode les ltd : Bool) (pc : Int)
    (h2 : isWordLike token = true) (h3 : callLookahead token iter = some false)
    (h4 : (mode && token.id == T_RIGHTPAREN) = false) :
    translateLoop (fuel + 1) (token :: iter) output mapper mode les ltd pc =
      translateLoop fuel iter
        (wordStep token ltd (passThroughOf mode token)
          (withSeparator output les (passThroughOf mode token)) mapper).1
        (wordStep token ltd (passThroughOf mode token)
          (withSeparator output les (passThroughOf mode token)) mapper).2
        mode false false (parenStep mode token pc) := by
  rw [translateLoop_cons]
  simp only [(wordLike_facts token h2).1, h2, h3, h4, Bool.false_eq_true, ↓reduceIte]

theorem translateLoop_word_normal (fuel : Nat) (token : lex_token) (iter : List lex_token)
    (output : String) (mapper : TokenMapper) (les ltd : Bool) (pc : Int)
    (h2 : isWordLike token = true) (h3 : callLookahead token iter = some false) :
    translateLoop (fuel + 1) (token :: iter) output mapper false les ltd pc =
      translateLoop fuel iter
        (wordStep token ltd false (withSeparator output les false) mapper).1
        (wordStep token ltd false (withSeparator output les false) mapper).2
        false false false pc := by
  rw [translateLoop_word fuel token iter output mapper false les ltd pc h2 h3
    (Bool.false_and _)]
  rfl

theorem translateLoop_wordReturn (fuel : Nat) (token : lex_token) (iter : List lex_token)
    (output : String) (mapper : TokenMapper) (mode les ltd : Bool) (pc : Int)
    (h2 : isWordLike token = true) (h3 : callLookahead token iter = some false)
    (h4 : (mode && token.id == T_RIGHTPAREN) = true) (h5 : parenStep mode token pc - 1 = 0) :
    translateLoop (fuel + 1) (token :: iter) output mapper mode les ltd pc =
      Outcome.returned iter
        (wordStep token ltd (passThroughOf mode token)
          (withSeparator output les (passThroughOf mode token)) mapper).1
        (wordStep token ltd (passThroughOf mode token)
          (withSeparator output les (passThroughOf mode token)) mapper).2 := by
  rw [translateLoop_cons]
  simp only [(wordLike_facts token h2).1, h2, h3, h4, h5, Bool.false_eq_true, ↓reduceIte]

theorem translateLoop_fused (fuel : Nat) (token : lex_token) (iter : List lex_token)
    (output : String) (mapper : TokenMapper) (mode les ltd : Bool) (pc : Int)
    (iter1 : List lex_token) (newoutput : String) (mapper1 : TokenMapper)
    (h2 : isWordLike token = true) (h3 : callLookahead token iter = some true)
    (hn : translateLoop fuel iter "" mapper true false true 0 =
      Outcome.returned iter1 newoutput mapper1) :
    translateLoop (fuel + 1) (token :: iter) output mapper mode les ltd pc =
      translateLoop fuel iter1
        (fusedStep token ltd (withSeparator output les (passThroughOf mode token))
          newoutput mapper1).1
        (fusedStep token ltd (withSeparator output les (passThroughOf mode token))
          newoutput mapper1).2 mode false false pc := by
  rw [translateLoop_cons]
  simp only [(wordLike_facts token h2).1, h2, h3, hn, Bool.false_eq_true, ↓reduceIte]

theorem callLookahead_not_identifier (token : lex_token) (iter : List lex_token)
    (h : IS_CATEGORY token IdentifierTokenType = false) : callLookahead token iter = some false := by
  simp [callLookahead, h]

theorem callLookahead_identifier (token : lex_token) (iter : List lex_token)
    (h : IS_CATEGORY token IdentifierTokenType = true) :
    callLookahead token iter = nextNonWhitespaceIsLeftParen iter := by
  simp [callLookahead, h, (identifier_facts token h).2.1]

theorem nextNonWhitespaceIsLeftParen_skip (token : lex_token) (iter : List lex_token)
    (h : IS_CATEGORY token WhiteSpaceTokenType = true) :
    nextNonWhitespaceIsLeftParen (token :: iter) = nextNonWhitespaceIsLeftParen iter := by
  simp [nextNonWhitespaceIsLeftParen, h]

theorem nextNonWhitespaceIsLeftParen_stop (token : lex_token) (iter : List lex_token)
    (h : IS_CATEGORY token WhiteSpaceTokenType = false) :
    nextNonWhitespaceIsLeftParen (token :: iter) = some (token.id == T_LEFTPAREN) := by
  simp [nextNonWhitespaceIsLeftParen, h]

theorem callLookahead_before_eof (token e : lex_token) (iter : List lex_token)
    (he : e.id = T_EOF) : callLookahead token (e :: iter) = some false := by
  cases h : IS_CATEGORY token IdentifierTokenType with
  | false => exact callLookahead_not_identifier _ _ h
  | true =>
    rw [callLookahead_identifier _ _ h, nextNonWhitespaceIsLeftParen_stop, he]
    · rfl
    · simp [IS_CATEGORY, he, CATEGORY_FROM_TOKEN]

/-- C8. For a stream define directive, whitespace, identifier `name` not followed by a
left parenthesis, whitespace, word-like token `v`, end marker (the text of `v` without
NUL character): the body is the directive, a space, the literal text of `name`, a
space and the alias of `v`; the alias table holds the one entry for the text of `v`,
so `name` adds none. -/
theorem define_name_exempt (d w1 name w2 v e : lex_token)
    (hd : d.id = T_PP_DEFINE) (hw1 : IS_CATEGORY w1 WhiteSpaceTokenType = true)
    (hname : IS_CATEGORY name IdentifierTokenType = true)
    (hw2 : IS_CATEGORY w2 WhiteSpaceTokenType = true)
    (hv : isWordLike v = true) (hnp : v.id ≠ T_LEFTPAREN)
    (hnul : Char.ofNat 0 ∉ v.value.data) (he : e.id = T_EOF) :
    bleach [d, w1, name, w2, v, e] =
      Outcome.returned [] (d.value ++ " " ++ name.value ++ " " ++ aliasOf 0)
        { pairs := [(aliasOf 0, v.value)], tokenMap := [(v.value, aliasOf 0)], curid := 1 } := by
  have hc := c_str_eq_self v.value hnul
  obtain ⟨f1, f2, -, -⟩ := whitespace_facts w1 hw1
  obtain ⟨g1, g2, -, -⟩ := whitespace_facts w2 hw2
  obtain ⟨n1, -, n3, -, -⟩ := identifier_facts name hname
  obtain ⟨-, v2, -, -⟩ := wordLike_facts v hv
  have hnp2 : (v.id == T_LEFTPAREN) = false := by simpa using hnp
  have hd1 : (d.id == T_EOF) = false := by rw [hd]; rfl
  have hdw : isWordLike d = false := by
    simp [isWordLike, IS_CATEGORY, hd, CATEGORY_FROM_TOKEN]
  have hln : callLookahead name [w2, v, e] = some false := by
    rw [callLookahead_identifier _ _ hname, nextNonWhitespaceIsLeftParen_skip _ _ hw2,
      nextNonWhitespaceIsLeftParen_stop _ _ v2, hnp2]
  have hlv : callLookahead v [e] = some false := callLookahead_before_eof v e [] he
  unfold bleach translate
  simp only [List.length_cons, List.length_nil]
  rw [translateLoop_plain _ _ _ _ _ _ _ _ _ hd1 hdw, plainStep_define _ _ _ _ _ hd,
    translateLoop_plain _ _ _ _ _ _ _ _ _ f1 f2, plainStep_whitespace _ _ _ _ _ hw1]
  rw [translateLoop_word_normal _ _ _ _ _ _ _ _ n1 hln,
    translateLoop_plain _ _ _ _ _ _ _ _ _ g1 g2, plainStep_whitespace _ _ _ _ _ hw2]
  rw [translateLoop_word_normal _ _ _ _ _ _ _ _ hv hlv, translateLoop_eof _ _ _ _ _ _ _ _ _ he]
  cases c1 : isComment w1 <;> cases c2 : isComment w2 <;>
    simp [withSeparator, wordStep, passThroughOf, hc, mapToken_empty, String.append_assoc]

theorem define_name_exempt_witness :
    bleach defineFoo1 = Outcome.returned [] "#define FOO \u200b"
      { pairs := [("\u200b", "1")], tokenMap := [("1", "\u200b")], curid := 1 } :=
  define_name_exempt ⟨T_PP_DEFINE, "#define"⟩ ⟨T_SPACE, " "⟩ ⟨T_IDENTIFIER, "FOO"⟩
    ⟨T_SPACE, " "⟩ ⟨T_INTLIT, "1"⟩ ⟨T_EOF, ""⟩ rfl rfl rfl rfl rfl (by decide) (by decide) rfl

/-- C2 (the code departs from the claim). On the input `int` the first word-like token
is written literally and the alias table stays empty: the loop starts with
`lastTokenIsDefine = true`. -/
theorem first_token_literal :
    bleach intAlone = Outcome.returned [] " int" { pairs := [], tokenMap := [], curid := 0 } := by
  decide

/-- C10 (counterexample). On the input `int x = 5;` the body holds `int` literally and
neither `=` nor `;`: both operators are replaced by aliases with entries of their own. -/
theorem plain_identifier_counterexample :
    bleach intX5 = Outcome.returned [] " int \u200b \u200c \u200d \ufeff"
      { pairs := [("\u200b", "x"), ("\u200c", "="), ("\u200d", "5"), ("\ufeff", ";")],
        tokenMap := [("x", "\u200b"), ("=", "\u200c"), ("5", "\u200d"), (";", "\ufeff")],
        curid := 4 } := by
  decide

theorem plainStep_rest (token : lex_token) (mode : Bool) (output : String) (les ltd : Bool)
    (h1 : isComment token = false) (h2 : (token.id == T_NEWLINE) = false)
    (h3 : IS_CATEGORY token WhiteSpaceTokenType = false) :
    plainStep token mode output les ltd =
      (output ++ token.value, false, token.id == T_PP_DEFINE) := by
  unfold isComment at h1
  simp only [plainStep, h1, h2, h3, Bool.false_eq_true, ↓reduceIte]

theorem isComment_of_not_whitespace (token : lex_token)
    (h : IS_CATEGORY token WhiteSpaceTokenType = false) : isComment token = false := by
  cases hc : isComment token with
  | false => rfl
  | true => rw [(isComment_facts token hc).2.2] at h; cases h

theorem plain_identifier_eval :
    bleach intX5 = Outcome.returned []
      (" " ++ "int" ++ " " ++ aliasOf 0 ++ " " ++ aliasOf 1 ++ " " ++ aliasOf 2 ++ " " ++ aliasOf 3)
      { pairs := [("\u200b", "x"), ("\u200c", "="), ("\u200d", "5"), ("\ufeff", ";")],
        tokenMap := [("x", "\u200b"), ("=", "\u200c"), ("5", "\u200d"), (";", "\ufeff")],
        curid := 4 } := by
  decide

/-- C10 (amended). On the input `int x = 5;` the body is a separator space, what stands
for `int`, and then, each after exactly one space, an alias for `x`, one for `=`, one
for `5` and one for `;`; each of the four is an alias of the generator and has its own
entry in the alias table. -/
theorem plain_identifier_scenario :
    ∃ (first ax ae a5 as : String) (mapper : TokenMapper),
      bleach intX5 = Outcome.returned []
        (" " ++ first ++ " " ++ ax ++ " " ++ ae ++ " " ++ a5 ++ " " ++ as) mapper ∧
      ' ' ∉ first.data ∧
      isCanonicalAlias ax ∧ isCanonicalAlias ae ∧ isCanonicalAlias a5 ∧ isCanonicalAlias as ∧
      (ax, "x") ∈ mapper.pairs ∧ (ae, "=") ∈ mapper.pairs ∧ (a5, "5") ∈ mapper.pairs ∧
      (as, ";") ∈ mapper.pairs ∧ [ax, ae, a5, as].Nodup := by
  refine ⟨"int", aliasOf 0, aliasOf 1, aliasOf 2, aliasOf 3, _, plain_identifier_eval, by decide,
    translateToken_canonical _ _, translateToken_canonical _ _, translateToken_canonical _ _,
    translateToken_canonical _ _, by decide, by decide, by decide, by decide, by decide⟩

/-! ## The round trip -/

theorem aliasOf_data (k : Nat) :
    (aliasOf k).data ≠ [] ∧ ∀ c ∈ (aliasOf k).data, isAliasSymbol c = true := by
  have h := translateToken_canonical { curid := k } ""
  exact ⟨h.1, by simpa using h.2.1⟩

/-- A run in normal mode that returns has read up to and including an end marker. -/
theorem Run_normal_ends_eof {iter : List lex_token} {output : String} {mapper : TokenMapper}
    {mode les ltd : Bool} {pc : Int} {r : Outcome}
    (h : Run iter output mapper mode les ltd pc r) :
    ∀ iter1 out1 m1, r = Outcome.returned iter1 out1 m1 →
      ∃ consumed, iter = consumed ++ iter1 ∧
        (mode = false → ∃ pre e, consumed = pre ++ [e] ∧ e.id = T_EOF) := by
  induction h with
  | nil => intro _ _ _ e; cases e
  | lookPastEnd => intro _ _ _ e; cases e
  | fusedPastEnd => intro _ _ _ e; cases e
  | eof token iter output mapper mode les ltd pc h1 =>
    intro iter1 out1 m1 e
    cases e
    exact ⟨[token], rfl, fun _ => ⟨[], token, rfl, by simpa using h1⟩⟩
  | wordReturn token iter output mapper mode les ltd pc h1 h2 h3 h4 h5 =>
    intro iter1 out1 m1 e
    cases e
    refine ⟨[token], rfl, fun hm => ?_⟩
    rw [hm] at h4
    simp at h4
  | wordClose token iter output mapper mode les ltd pc r h1 h2 h3 h4 h5 _ ih =>
    intro iter1 out1 m1 e
    obtain ⟨c, hc, hm⟩ := ih iter1 out1 m1 e
    refine ⟨token :: c, by rw [hc]; rfl, fun hmode => ?_⟩
    obtain ⟨pre, e, he, hid⟩ := hm hmode
    exact ⟨token :: pre, e, by rw [he]; rfl, hid⟩
  | word token iter output mapper mode les ltd pc r h1 h2 h3 h4 _ ih =>
    intro iter1 out1 m1 e
    obtain ⟨c, hc, hm⟩ := ih iter1 out1 m1 e
    refine ⟨token :: c, by rw [hc]; rfl, fun hmode => ?_⟩
    obtain ⟨pre, e, he, hid⟩ := hm hmode
    exact ⟨token :: pre, e, by rw [he]; rfl, hid⟩
  | plain token iter output mapper mode les ltd pc r h1 h2 _ ih =>
    intro iter1 out1 m1 e
    obtain ⟨c, hc, hm⟩ := ih iter1 out1 m1 e
    refine ⟨token :: c, by rw [hc]; rfl, fun hmode => ?_⟩
    obtain ⟨pre, e, he, hid⟩ := hm hmode
    exact ⟨token :: pre, e, by rw [he]; rfl, hid⟩
  | fused token iter output mapper mode les ltd pc iterN newoutput mapperN r h1 h2 h3 _ _
      ihn ihc =>
    intro iter1 out1 m1 e
    obtain ⟨cn, hcn, _⟩ := ihn iterN newoutput mapperN rfl
    obtain ⟨c, hc, hm⟩ := ihc iter1 out1 m1 e
    refine ⟨token :: (cn ++ c), by rw [hcn, hc]; simp, fun hmode => ?_⟩
    obtain ⟨pre, e, he, hid⟩ := hm hmode
    exact ⟨token :: (cn ++ pre), e, by rw [he]; simp, hid⟩

/-- C11 (counterexample). On the input `a(b(c))` the alias table ends with the entries
for `c` and for the inner call only: the outer call is written literally, no key for it
is resolved, and its text has two spaces between `a(` and the alias of the inner
call. -/
theorem nested_call_counterexample :
    bleach aBC = Outcome.returned [] "  a(  \u200c)"
      { pairs := [("\u200b", "c"), ("\u200c", "b( \u200b)")],
        tokenMap := [("c", "\u200b"), ("b( \u200b)", "\u200c")], curid := 2 } := by
  decide

/-- C11 (amended). When `a(b(c))` stands after a token that is passed through and is not
a define directive, and whitespace: the alias table ends with three entries, in this
order: `c`, the inner call with text `b(`, a space, the alias of `c` and `)`, and the
outer call with text `a(`, two spaces, the alias of the inner call and `)`; the body
holds the alias of the outer call. -/
theorem nested_call (p w : lex_token) (hp1 : isWordLike p = false)
    (hp2 : IS_CATEGORY p WhiteSpaceTokenType = false) (hp3 : p.id ≠ T_EOF)
    (hp4 : p.id ≠ T_NEWLINE) (hp5 : p.id ≠ T_PP_DEFINE)
    (hw : IS_CATEGORY w WhiteSpaceTokenType = true) :
    bleach (p :: w :: aBC) =
      Outcome.returned [] (p.value ++ "  " ++ aliasOf 2)
        { pairs := [(aliasOf 0, "c"), (aliasOf 1, "b( " ++ aliasOf 0 ++ ")"),
            (aliasOf 2, "a(  " ++ aliasOf 1 ++ ")")],
          tokenMap := [("c", aliasOf 0), ("b( " ++ aliasOf 0 ++ ")", aliasOf 1),
            ("a(  " ++ aliasOf 1 ++ ")", aliasOf 2)],
          curid := 3 } := by
  have q3 : (p.id == T_EOF) = false := by simpa using hp3
  have q4 : (p.id == T_NEWLINE) = false := by simpa using hp4
  have q5 : (p.id == T_PP_DEFINE) = false := by simpa using hp5
  obtain ⟨f1, f2, -, -⟩ := whitespace_facts w hw
  have hn : translateLoop 8
      [⟨T_LEFTPAREN, "("⟩, ⟨T_IDENTIFIER, "b"⟩, ⟨T_LEFTPAREN, "("⟩, ⟨T_IDENTIFIER, "c"⟩,
        ⟨T_RIGHTPAREN, ")"⟩, ⟨T_RIGHTPAREN, ")"⟩, ⟨T_EOF, ""⟩] "" {} true false true 0 =
      Outcome.returned [⟨T_EOF, ""⟩] "(  \u200c)"
        { pairs := [("\u200b", "c"), ("\u200c", "b( \u200b)")],
          tokenMap := [("c", "\u200b"), ("b( \u200b)", "\u200c")], curid := 2 } := by decide
  have hk : TokenMapper.mapToken
      { pairs := [("\u200b", "c"), ("\u200c", "b( \u200b)")],
        tokenMap := [("c", "\u200b"), ("b( \u200b)", "\u200c")], curid := 2 }
      (c_str "a" ++ "(  \u200c)") =
      ("\u200d",
        { pairs := [("\u200b", "c"), ("\u200c", "b( \u200b)"), ("\u200d", "a(  \u200c)")],
          tokenMap := [("c", "\u200b"), ("b( \u200b)", "\u200c"), ("a(  \u200c)", "\u200d")],
          curid := 3 }) := by decide
  have a0 : aliasOf 0 = "\u200b" := by decide
  have a1 : aliasOf 1 = "\u200c" := by decide
  have a2 : aliasOf 2 = "\u200d" := by decide
  have k1 : "b( " ++ "\u200b" ++ ")" = "b( \u200b)" := by decide
  have k2 : "a(  " ++ "\u200c" ++ ")" = "a(  \u200c)" := by decide
  unfold bleach translate aBC
  simp only [List.length_cons, List.length_nil]
  rw [translateLoop_plain _ _ _ _ _ _ _ _ _ q3 hp1,
    plainStep_rest _ _ _ _ _ (isComment_of_not_whitespace p hp2) q4 hp2, q5,
    translateLoop_plain _ _ _ _ _ _ _ _ _ f1 f2, plainStep_whitespace _ _ _ _ _ hw]
  rw [translateLoop_fused _ _ _ _ _ _ _ _ _ _ _ _ (by decide) (by decide) hn,
    translateLoop_eof _ _ _ _ _ _ _ _ _ rfl]
  simp only [fusedStep, Bool.not_false, ↓reduceIte, hk, a0, a1, a2, k1, k2]
  cases c : isComment w <;>
    simp [withSeparator, passThroughOf, String.append_assoc]

theorem nested_call_witness :
    bleach (⟨T_PP_PRAGMA, "#pragma"⟩ :: ⟨T_SPACE, " "⟩ :: aBC) =
      Outcome.returned [] ("#pragma" ++ "  " ++ aliasOf 2)
        { pairs := [(aliasOf 0, "c"), (aliasOf 1, "b( " ++ aliasOf 0 ++ ")"),
            (aliasOf 2, "a(  " ++ aliasOf 1 ++ ")")],
          tokenMap := [("c", aliasOf 0), ("b( " ++ aliasOf 0 ++ ")", aliasOf 1),
            ("a(  " ++ aliasOf 1 ++ ")", aliasOf 2)],
          curid := 3 } :=
  nested_call ⟨T_PP_PRAGMA, "#pragma"⟩ ⟨T_SPACE, " "⟩ rfl rfl (by decide) (by decide)
    (by decide) rfl

/-- C20 (the code departs from the claim). On the input `foo(` the nested invocation
ends at the end marker and leaves the cursor behind it; the outer loop then reads the
next token, which is a read past the end marker. -/
theorem unclosed_call_reads_past_end :
    bleach fooUnclosed = Outcome.pastEnd ∧
      translate 3 [⟨T_LEFTPAREN, "("⟩, ⟨T_EOF, ""⟩] "" {} true =
        Outcome.returned [] "(" {} := by
  decide

/-- C18. In call mode a token `(`, `)` or `,` is written as its literal text alone, with
no separator before it, and the mapper is left as it is: the loop returns with that
output when the token is the `)` that brings `parenCount` to zero, and goes on with that
output, both flags cleared and the adjusted `parenCount` otherwise. -/
theorem call_mode_pass_through (fuel : Nat) (token : lex_token) (iter : List lex_token)
    (output : String) (mapper : TokenMapper) (les ltd : Bool) (pc : Int)
    (h : token.id = T_LEFTPAREN ∨ token.id = T_RIGHTPAREN ∨ token.id = T_COMMA) :
    translateLoop (fuel + 1) (token :: iter) output mapper true les ltd pc =
      if token.id = T_RIGHTPAREN ∧ pc - 1 = 0 then
        Outcome.returned iter (output ++ token.value) mapper
      else
        translateLoop fuel iter (output ++ token.value) mapper true false false
          (if token.id = T_LEFTPAREN then pc + 1
            else if token.id = T_RIGHTPAREN then pc - 1 else pc) := by
  obtain ⟨id, value⟩ := token
  simp only at h
  rw [translateLoop_cons]
  rcases h with h | h | h <;> subst h <;>
    simp [isWordLike, IS_CATEGORY, CATEGORY_FROM_TOKEN, callLookahead, passThroughOf,
      withSeparator, wordStep, parenStep]

theorem call_mode_pass_through_witness :
    translateLoop 3 [⟨T_COMMA, ","⟩, ⟨T_RIGHTPAREN, ")"⟩] "( x" {} true false false 1 =
      translateLoop 2 [⟨T_RIGHTPAREN, ")"⟩] ("( x" ++ ",") {} true false false 1 :=
  call_mode_pass_through 2 ⟨T_COMMA, ","⟩ [⟨T_RIGHTPAREN, ")"⟩] "( x" {} false false 1
    (Or.inr (Or.inr rfl))

/-! ## The length of the aliases -/

theorem aliasOf_canonical (n : Nat) : isCanonicalAlias (aliasOf n) :=
  translateToken_canonical { curid := n } ""

theorem decodeFrom_aliasOf (n : Nat) : decodeFrom 0 (aliasOf n).data = n := by
  have h := decodeAlias_translateToken { curid := n } ""
  have hc := (aliasOf_canonical n).2.1
  unfold aliasOf
  unfold aliasOf at hc
  simp only [decodeAlias, hc, ↓reduceIte, Option.some.injEq] at h
  exact h

theorem aliasOf_decodeFrom (s : String) (hs : isCanonicalAlias s) :
    aliasOf (decodeFrom 0 s.data) = s := by
  obtain ⟨hne, hall, hcan⟩ := hs
  obtain ⟨_, hall2, hcan2⟩ := aliasOf_canonical (decodeFrom 0 s.data)
  have hv := decodeFrom_aliasOf (decodeFrom 0 s.data)
  rcases hcan with h0 | hhead
  · rw [h0]; decide
  · rcases hcan2 with g0 | ghead
    · exfalso
      have hz : decodeFrom 0 s.data = 0 := by
        rw [g0] at hv
        rw [← hv]; decide
      have e := canonical_unique [] s.data rfl hall (by simp) hhead
        (by simpa [decodeFrom] using hz.symm)
      exact hne e.symm
    · apply String.ext
      exact canonical_unique _ _ hall2 hall ghead hhead hv

theorem decodeFrom_lt_pow (l : List Char) : decodeFrom 0 l < 4 ^ l.length := by
  rw [decodeFrom_eq_ofDigits]
  simp only [zero_mul, zero_add]
  have := @Nat.ofDigits_lt_base_pow_length 4 (l.reverse.map digitValue) (by norm_num)
    (by
      intro d hd
      simp only [List.mem_map] at hd
      obtain ⟨c, _, rfl⟩ := hd
      exact digitValue_lt c)
  simpa using this

theorem pow_le_decodeFrom (c : Char) (t : List Char) (hc : isAliasSymbol c = true)
    (hne : c ≠ digitChar 0) : 4 ^ t.length ≤ decodeFrom 0 (c :: t) := by
  have h : decodeFrom 0 (c :: t) = decodeFrom (4 * 0 + digitValue c) t := rfl
  rw [h, decodeFrom_eq_ofDigits]
  have hd : digitValue c ≠ 0 := by
    intro h0
    apply hne
    have := digitChar_digitValue c hc
    rw [h0] at this
    exact this.symm
  have hpos : 1 ≤ digitValue c := Nat.one_le_iff_ne_zero.2 hd
  calc 4 ^ t.length = 1 * 4 ^ t.length := by ring
    _ ≤ (4 * 0 + digitValue c) * 4 ^ t.length := by
      apply Nat.mul_le_mul_right; omega
    _ ≤ _ := Nat.le_add_right _ _

/-- C13 (counterexample). The alias of 16 has three symbols, and the two-symbol string
`D0 D0` is the alias of no counter value. -/
theorem minimal_length_counterexample :
    (aliasOf 16).data.length = 3 ∧ ("\u200b\u200b" : String).data.length = 2 ∧
      ("\u200b\u200b" : String).data.all isAliasSymbol = true ∧
      ∀ m : Nat, aliasOf m ≠ "\u200b\u200b" := by
  refine ⟨by decide, by decide, by decide, ?_⟩
  intro m h
  have hc := (aliasOf_canonical m).2.2
  rw [h] at hc
  rcases hc with h0 | h1
  · exact absurd h0 (by decide)
  · exact h1 (by decide)

/-- C13 (amended). Every canonical numeral (a nonempty string over the four symbols that is
the single symbol `D0` or does not start with `D0`) that is strictly shorter than the
alias of `n` is the alias of a counter value below `n`. -/
theorem minimal_length (n : Nat) (s : String) (hs : isCanonicalAlias s)
    (hlen : s.data.length < (aliasOf n).data.length) :
    ∃ m, m < n ∧ aliasOf m = s := by
  refine ⟨decodeFrom 0 s.data, ?_, aliasOf_decodeFrom s hs⟩
  obtain ⟨hne, hall, hcan⟩ := aliasOf_canonical n
  have hlt := decodeFrom_lt_pow s.data
  cases hd : (aliasOf n).data with
  | nil => exact absurd hd hne
  | cons c t =>
    rw [hd] at hlen hall
    simp only [List.length_cons] at hlen
    have hc : isAliasSymbol c = true := by
      simp only [List.all_cons, Bool.and_eq_true] at hall
      exact hall.1
    have hpow : 4 ^ s.data.length ≤ 4 ^ t.length :=
      Nat.pow_le_pow_right (by norm_num) (by omega)
    rcases hcan with h0 | hhead
    · exfalso
      have : (aliasOf n).data = (digits 0).data := by rw [h0]
      rw [hd, digits_data] at this
      have ht : t = [] := (List.cons.inj this).2
      subst ht
      have := hs.1
      have hl : s.data.length ≠ 0 := fun h0 => this (List.length_eq_zero.1 h0)
      simp at hlen
      exact hl hlen
    · have hcne : c ≠ digitChar 0 := by
        intro e
        apply hhead
        rw [hd, e]; rfl
      have hge := pow_le_decodeFrom c t hc hcne
      have hv := decodeFrom_aliasOf n
      rw [hd] at hv
      omega

theorem minimal_length_witness :
    ∃ m, m < 4 ∧ aliasOf m = "\u200d" :=
  minimal_length 4 "\u200d" (by unfold isCanonicalAlias; decide) (by decide)

/-! ## The prologue -/

theorem writeHeader_foldl (ps : List (String × String)) : ∀ (k : Nat) (acc : String),
    ps.map Prod.fst = (List.range' k ps.length).map aliasOf →
    ps.foldl (fun output pair => output ++ "#define " ++ pair.1 ++ " " ++ pair.2 ++ "\n") acc =
      acc ++ prologueFrom k (ps.map Prod.snd) := by
  induction ps with
  | nil => intro k acc _; simp [prologueFrom]
  | cons p ps ih =>
    intro k acc h
    obtain ⟨a, t⟩ := p
    simp only [List.map_cons, List.length_cons, List.range'_succ, List.cons.injEq] at h
    obtain ⟨ha, hrest⟩ := h
    simp only [List.foldl_cons, List.map_cons, prologueFrom, headerLine]
    rw [ih (k + 1) _ hrest, ha]
    simp [String.append_assoc]

theorem writeHeader_eq (m : TokenMapper) (h : TableInv m) :
    m.writeHeader = prologueFrom 0 (m.pairs.map Prod.snd) := by
  unfold TokenMapper.writeHeader
  rw [writeHeader_foldl m.pairs 0 "" (by rw [← List.range_eq_range']; exact h.2.2.1)]
  simp

theorem count_newline_append (a b : String) :
    (a ++ b).data.count '\n' = a.data.count '\n' + b.data.count '\n' := by
  simp [String.data_append, List.count_append]

theorem aliasOf_no_newline (k : Nat) : (aliasOf k).data.count '\n' = 0 := by
  rw [List.count_eq_zero]
  intro h
  have := (aliasOf_data k).2 _ h
  exact absurd this (by decide)

theorem prologueFrom_count (texts : List String) (h : ∀ t ∈ texts, '\n' ∉ t.data) :
    ∀ k, (prologueFrom k texts).data.count '\n' = texts.length := by
  induction texts with
  | nil => intro k; rfl
  | cons t texts ih =>
    intro k
    have ht : t.data.count '\n' = 0 := List.count_eq_zero.2 (h t (List.mem_cons_self _ _))
    have h1 : ("#define " : String).data.count '\n' = 0 := by decide
    have h2 : (" " : String).data.count '\n' = 0 := by decide
    have h3 : ("\n" : String).data.count '\n' = 1 := by decide
    simp only [prologueFrom, headerLine, count_newline_append, aliasOf_no_newline, ht, h1, h2,
      h3, ih (fun u hu => h u (List.mem_cons_of_mem _ hu)), List.length_cons]
    omega

theorem resolveAll_append (a b : List String) (m : TokenMapper) :
    resolveAll (a ++ b) m = resolveAll b (resolveAll a m) := by
  simp [resolveAll, List.foldl_append]

/-- The mapper a run leaves is the mapper it started with after some sequence of
`mapToken` calls. -/
theorem Run_resolveAll {iter : List lex_token} {output : String} {mapper : TokenMapper}
    {mode les ltd : Bool} {pc : Int} {r : Outcome}
    (h : Run iter output mapper mode les ltd pc r) :
    ∀ iter1 out1 m1, r = Outcome.returned iter1 out1 m1 → ∃ ks, m1 = resolveAll ks mapper := by
  have hword : ∀ (token : lex_token) (ltd pt : Bool) (out : String) (m : TokenMapper),
      ∃ ks, (wordStep token ltd pt out m).2 = resolveAll ks m := by
    intro token ltd pt out m
    unfold wordStep
    split
    · exact ⟨[c_str token.value], rfl⟩
    · exact ⟨[], rfl⟩
  have hfused : ∀ (token : lex_token) (ltd : Bool) (out nw : String) (m : TokenMapper),
      ∃ ks, (fusedStep token ltd out nw m).2 = resolveAll ks m := by
    intro token ltd out nw m
    unfold fusedStep
    split
    · exact ⟨[c_str token.value ++ nw], rfl⟩
    · exact ⟨[], rfl⟩
  induction h with
  | nil => intro _ _ _ e; cases e
  | lookPastEnd => intro _ _ _ e; cases e
  | fusedPastEnd => intro _ _ _ e; cases e
  | eof token iter output mapper mode les ltd pc h1 =>
    intro _ _ _ e; cases e; exact ⟨[], rfl⟩
  | wordReturn token iter output mapper mode les ltd pc h1 h2 h3 h4 h5 =>
    intro _ _ _ e; cases e; exact hword _ _ _ _ _
  | wordClose token iter output mapper mode les ltd pc r h1 h2 h3 h4 h5 _ ih =>
    intro a b c e
    obtain ⟨k1, e1⟩ := hword token ltd (passThroughOf mode token)
      (withSeparator output les (passThroughOf mode token)) mapper
    obtain ⟨k2, e2⟩ := ih a b c e
    exact ⟨k1 ++ k2, by rw [e2, e1, resolveAll_append]⟩
  | word token iter output mapper mode les ltd pc r h1 h2 h3 h4 _ ih =>
    intro a b c e
    obtain ⟨k1, e1⟩ := hword token ltd (passThroughOf mode token)
      (withSeparator output les (passThroughOf mode token)) mapper
    obtain ⟨k2, e2⟩ := ih a b c e
    exact ⟨k1 ++ k2, by rw [e2, e1, resolveAll_append]⟩
  | plain token iter output mapper mode les ltd pc r h1 h2 _ ih =>
    intro a b c e
    exact ih a b c e
  | fused token iter output mapper mode les ltd pc iterN newoutput mapperN r h1 h2 h3 _ _
      ihn ihc =>
    intro a b c e
    obtain ⟨k0, e0⟩ := ihn iterN newoutput mapperN rfl
    obtain ⟨k1, e1⟩ := hfused token ltd (withSeparator output les (passThroughOf mode token))
      newoutput mapperN
    obtain ⟨k2, e2⟩ := ihc a b c e
    exact ⟨k0 ++ (k1 ++ k2), by rw [e2, e1, e0, resolveAll_append, resolveAll_append]⟩

theorem resolveAll_texts (ts : List String) :
    (resolveAll ts {}).pairs.map Prod.snd = firstSeen ts := by
  have := resolveAll_keys ts {} TableInv_empty
  simpa using this

/-- C12. After the `mapToken` calls on the texts `ts` from the empty table, `writeHeader`
writes one line per distinct text of `ts`, in order of first occurrence: line `k`,
counting from 0, is `#define `, the generator's alias for `k`, a space, the `k`-th
distinct text and a newline. There are as many lines as the counter says; when no text
holds a newline character these are all the newline characters written. The alias table
that `translate` leaves after a run from the empty table is such a table. -/
theorem prologue_content (ts : List String) :
    (resolveAll ts {}).writeHeader = prologueFrom 0 (firstSeen ts) ∧
    (firstSeen ts).length = (resolveAll ts {}).curid ∧
    ((∀ t ∈ ts, '\n' ∉ t.data) →
      (resolveAll ts {}).writeHeader.data.count '\n' = (resolveAll ts {}).curid) ∧
    (∀ (tokens rest : List lex_token) (body : String) (mapper : TokenMapper),
      bleach tokens = Outcome.returned rest body mapper → ∃ ks, mapper = resolveAll ks {}) := by
  have hinv := TableInv_resolveAll ts {} TableInv_empty
  have htexts := resolveAll_texts ts
  have hlen : (firstSeen ts).length = (resolveAll ts {}).curid := by
    rw [hinv.1, ← htexts]; simp
  have hmem : ∀ t ∈ firstSeen ts, t ∈ ts := by
    intro t ht
    have hsub : ∀ (l : List String) (u : String), u ∈ firstSeen l → u ∈ l := by
      intro l
      induction l with
      | nil => intro u hu; simp [firstSeen] at hu
      | cons a l ih =>
        intro u hu
        simp only [firstSeen, List.mem_cons, List.mem_filter] at hu
        rcases hu with e | ⟨hu, _⟩
        · rw [e]; exact List.mem_cons_self _ _
        · exact List.mem_cons_of_mem _ (ih u hu)
    exact hsub ts t ht
  refine ⟨by rw [writeHeader_eq _ hinv, htexts], hlen, ?_, ?_⟩
  · intro hnl
    rw [writeHeader_eq _ hinv, htexts, prologueFrom_count _ (fun t ht => hnl t (hmem t ht)), hlen]
  · intro tokens rest body mapper hb
    have hrun := run_translate tokens "" {} false
    have hb2 : translate (tokens.length + 1) tokens "" {} false =
        Outcome.returned rest body mapper := hb
    rw [hb2] at hrun
    exact Run_resolveAll hrun rest body mapper rfl

/-! ## Newlines and call fusion -/

theorem translateLoop_plainRun (block : List lex_token)
    (hb : ∀ t ∈ block, (t.id == T_EOF) = false ∧ isWordLike t = false) :
    ∀ (fuel : Nat) (tail : List lex_token) (output : String) (mapper : TokenMapper)
      (mode les ltd : Bool) (pc : Int),
      translateLoop (fuel + block.length) (block ++ tail) output mapper mode les ltd pc =
        translateLoop fuel tail (plainRun mode block (output, les, ltd)).1 mapper mode
          (plainRun mode block (output, les, ltd)).2.1
          (plainRun mode block (output, les, ltd)).2.2 pc := by
  induction block with
  | nil => intro fuel tail output mapper mode les ltd pc; rfl
  | cons t block ih =>
    intro fuel tail output mapper mode les ltd pc
    obtain ⟨h1, h2⟩ := hb t (List.mem_cons_self _ _)
    have hstep := translateLoop_plain (fuel + block.length) t (block ++ tail) output mapper
      mode les ltd pc h1 h2
    have e : fuel + (t :: block).length = fuel + block.length + 1 := rfl
    rw [e, List.cons_append, hstep, ih (fun u hu => hb u (List.mem_cons_of_mem _ hu))]
    rfl

theorem nextNonWhitespaceIsLeftParen_block (block : List lex_token)
    (hb : ∀ t ∈ block, IS_CATEGORY t WhiteSpaceTokenType = true) (tail : List lex_token) :
    nextNonWhitespaceIsLeftParen (block ++ tail) = nextNonWhitespaceIsLeftParen tail := by
  induction block with
  | nil => rfl
  | cons t block ih =>
    rw [List.cons_append, nextNonWhitespaceIsLeftParen_skip _ _ (hb t (List.mem_cons_self _ _))]
    exact ih (fun u hu => hb u (List.mem_cons_of_mem _ hu))

theorem newline_facts (token : lex_token) (h : token.id = T_NEWLINE) :
    (token.id == T_EOF) = false ∧ isWordLike token = false ∧
      IS_CATEGORY token WhiteSpaceTokenType = false ∧ (token.id == T_LEFTPAREN) = false := by
  obtain ⟨id, value⟩ := token
  simp only at h
  subst h
  exact ⟨rfl, rfl, rfl, rfl⟩

theorem leftParen_facts (token : lex_token) (h : token.id = T_LEFTPAREN) :
    isWordLike token = true ∧ IS_CATEGORY token IdentifierTokenType = false ∧
      (token.id == T_RIGHTPAREN) = false ∧ IS_CATEGORY token WhiteSpaceTokenType = false := by
  obtain ⟨id, value⟩ := token
  simp only at h
  subst h
  exact ⟨rfl, rfl, rfl, rfl⟩

theorem plainStep_ltd (token : lex_token) (mode : Bool) (output : String) (les ltd : Bool)
    (h : IS_CATEGORY token WhiteSpaceTokenType = true ∨ token.id = T_NEWLINE) :
    (plainStep token mode output les ltd).2.2 = ltd := by
  rcases h with h | h
  · rw [plainStep_whitespace _ _ _ _ _ h]
    split <;> rfl
  · have hc : (token.id == T_CCOMMENT || token.id == T_CPPCOMMENT) = false := by
      rw [h]; rfl
    have hn : (token.id == T_NEWLINE) = true := by rw [h]; rfl
    simp only [plainStep, hc, hn, Bool.false_eq_true, ↓reduceIte]

theorem plainRun_ltd (mode : Bool) (block : List lex_token)
    (hb : ∀ t ∈ block, IS_CATEGORY t WhiteSpaceTokenType = true ∨ t.id = T_NEWLINE) :
    ∀ (output : String) (les ltd : Bool), (plainRun mode block (output, les, ltd)).2.2 = ltd := by
  induction block with
  | nil => intro _ _ _; rfl
  | cons t block ih =>
    intro output les ltd
    simp only [plainRun]
    have h1 := plainStep_ltd t mode output les ltd (hb t (List.mem_cons_self _ _))
    have h2 := ih (fun u hu => hb u (List.mem_cons_of_mem _ hu))
      (plainStep t mode output les ltd).1 (plainStep t mode output les ltd).2.1
      (plainStep t mode output les ltd).2.2
    rw [h2, h1]

/-- C17. An identifier followed by whitespace tokens `ws1`, a newline token, whitespace
tokens `ws2` and then `(` is not fused: the lookahead answers no, so no nested invocation
is made; the identifier is written by the ordinary word step (resolved on its own text,
or literally when `lastTokenIsDefine` is set); and the same invocation of the loop goes
on through the whitespace, the newline and the `(`, which it handles by the ordinary
word step too. -/
theorem newline_blocks_fusion (fuel : Nat) (ident nl lp : lex_token)
    (ws1 ws2 rest : List lex_token) (output : String) (mapper : TokenMapper)
    (mode les ltd : Bool) (pc : Int)
    (hid : IS_CATEGORY ident IdentifierTokenType = true)
    (hws1 : ∀ t ∈ ws1, IS_CATEGORY t WhiteSpaceTokenType = true) (hnl : nl.id = T_NEWLINE)
    (hws2 : ∀ t ∈ ws2, IS_CATEGORY t WhiteSpaceTokenType = true)
    (hlp : lp.id = T_LEFTPAREN) :
    callLookahead ident ((ws1 ++ nl :: ws2) ++ lp :: rest) = some false ∧
    translateLoop (fuel + (ws1 ++ nl :: ws2).length + 2)
        (ident :: ((ws1 ++ nl :: ws2) ++ lp :: rest)) output mapper mode les ltd pc =
      translateLoop fuel rest
        (wordStep lp false (passThroughOf mode lp)
          (withSeparator
            (plainRun mode (ws1 ++ nl :: ws2)
              ((wordStep ident ltd false (withSeparator output les false) mapper).1,
                false, false)).1
            (plainRun mode (ws1 ++ nl :: ws2)
              ((wordStep ident ltd false (withSeparator output les false) mapper).1,
                false, false)).2.1
            (passThroughOf mode lp))
          (wordStep ident ltd false (withSeparator output les false) mapper).2).1
        (wordStep lp false (passThroughOf mode lp)
          (withSeparator
            (plainRun mode (ws1 ++ nl :: ws2)
              ((wordStep ident ltd false (withSeparator output les false) mapper).1,
                false, false)).1
            (plainRun mode (ws1 ++ nl :: ws2)
              ((wordStep ident ltd false (withSeparator output les false) mapper).1,
                false, false)).2.1
            (passThroughOf mode lp))
          (wordStep ident ltd false (withSeparator output les false) mapper).2).2
        mode false false (parenStep mode lp pc) := by
  obtain ⟨n1, -, n3, n4, -⟩ := identifier_facts ident hid
  obtain ⟨e1, e2, e3, e4⟩ := newline_facts nl hnl
  obtain ⟨l1, l2, l3, -⟩ := leftParen_facts lp hlp
  have hlook : callLookahead ident ((ws1 ++ nl :: ws2) ++ lp :: rest) = some false := by
    rw [callLookahead_identifier _ _ hid, List.append_assoc,
      nextNonWhitespaceIsLeftParen_block ws1 hws1, List.cons_append,
      nextNonWhitespaceIsLeftParen_stop _ _ e3, e4]
  refine ⟨hlook, ?_⟩
  have hblock : ∀ t ∈ ws1 ++ nl :: ws2, (t.id == T_EOF) = false ∧ isWordLike t = false := by
    intro t ht
    simp only [List.mem_append, List.mem_cons] at ht
    rcases ht with h | h | h
    · exact ⟨(whitespace_facts t (hws1 t h)).1, (whitespace_facts t (hws1 t h)).2.1⟩
    · rw [h]; exact ⟨e1, e2⟩
    · exact ⟨(whitespace_facts t (hws2 t h)).1, (whitespace_facts t (hws2 t h)).2.1⟩
  have hident : (mode && ident.id == T_RIGHTPAREN) = false := by simp [n4]
  have hlpr : (mode && lp.id == T_RIGHTPAREN) = false := by simp [l3]
  have ef : fuel + (ws1 ++ nl :: ws2).length + 2 = (fuel + 1 + (ws1 ++ nl :: ws2).length) + 1 := by
    omega
  rw [ef, translateLoop_word _ _ _ _ _ _ _ _ _ n1 hlook hident, n3,
    translateLoop_plainRun _ hblock,
    translateLoop_word _ _ _ _ _ _ _ _ _ l1 (callLookahead_not_identifier _ _ l2) hlpr]
  have hps : parenStep mode ident pc = pc := by
    simp [parenStep, (identifier_facts ident hid).2.2.2.2]
  rw [hps]
  have hltd := plainRun_ltd mode (ws1 ++ nl :: ws2)
    (by
      intro t ht
      simp only [List.mem_append, List.mem_cons] at ht
      rcases ht with h | h | h
      · exact Or.inl (hws1 t h)
      · exact Or.inr (h ▸ hnl)
      · exact Or.inl (hws2 t h))
    (wordStep ident ltd false (withSeparator output les false) mapper).1 false false
  rw [hltd]

theorem newline_blocks_fusion_witness :
    callLookahead ⟨T_IDENTIFIER, "foo"⟩
        [⟨T_NEWLINE, "\n"⟩, ⟨T_SPACE, " "⟩, ⟨T_LEFTPAREN, "("⟩, ⟨T_IDENTIFIER, "x"⟩,
          ⟨T_RIGHTPAREN, ")"⟩, ⟨T_EOF, ""⟩] = some false ∧
    translateLoop 8
        [⟨T_IDENTIFIER, "foo"⟩, ⟨T_NEWLINE, "\n"⟩, ⟨T_SPACE, " "⟩, ⟨T_LEFTPAREN, "("⟩,
          ⟨T_IDENTIFIER, "x"⟩, ⟨T_RIGHTPAREN, ")"⟩, ⟨T_EOF, ""⟩] ";" {} false false false 0 =
      translateLoop 4 [⟨T_IDENTIFIER, "x"⟩, ⟨T_RIGHTPAREN, ")"⟩, ⟨T_EOF, ""⟩]
        "; \u200b\n \u200c"
        { pairs := [("\u200b", "foo"), ("\u200c", "(")],
          tokenMap := [("foo", "\u200b"), ("(", "\u200c")], curid := 2 }
        false false false 0 :=
  newline_blocks_fusion 4 ⟨T_IDENTIFIER, "foo"⟩ ⟨T_NEWLINE, "\n"⟩ ⟨T_LEFTPAREN, "("⟩ []
    [⟨T_SPACE, " "⟩] [⟨T_IDENTIFIER, "x"⟩, ⟨T_RIGHTPAREN, ")"⟩, ⟨T_EOF, ""⟩] ";" {} false false
    false 0 rfl (by decide) rfl (by decide) rfl

/-! ## The start of a fused call -/

theorem nextNonWhitespaceIsLeftParen_true (iter : List lex_token)
    (h : nextNonWhitespaceIsLeftParen iter = some true) :
    ∃ ws lp ts, iter = ws ++ lp :: ts ∧
      (∀ t ∈ ws, IS_CATEGORY t WhiteSpaceTokenType = true) ∧ lp.id = T_LEFTPAREN := by
  induction iter with
  | nil => simp [nextNonWhitespaceIsLeftParen] at h
  | cons t iter ih =>
    by_cases hw : IS_CATEGORY t WhiteSpaceTokenType = true
    · rw [nextNonWhitespaceIsLeftParen_skip _ _ hw] at h
      obtain ⟨ws, lp, ts, e, hws, hlp⟩ := ih h
      refine ⟨t :: ws, lp, ts, by rw [e]; rfl, ?_, hlp⟩
      intro u hu
      rcases List.mem_cons.1 hu with e2 | h2
      · rw [e2]; exact hw
      · exact hws u h2
    · simp only [Bool.not_eq_true] at hw
      rw [nextNonWhitespaceIsLeftParen_stop _ _ hw] at h
      exact ⟨[], t, iter, rfl, by intro u hu; simp at hu, by simpa using h⟩

theorem not_paren_of_not_wordLike (token : lex_token) (h : isWordLike token = false) :
    (token.id == T_LEFTPAREN) = false ∧ (token.id == T_RIGHTPAREN) = false := by
  obtain ⟨id, value⟩ := token
  cases id <;> simp [isWordLike, IS_CATEGORY, CATEGORY_FROM_TOKEN] at h ⊢

theorem groupEnd_other (d : Nat) (t : lex_token) (ts : List lex_token) (hd : d ≠ 0)
    (h1 : (t.id == T_EOF) = false) (h2 : (t.id == T_LEFTPAREN) = false)
    (h3 : (t.id == T_RIGHTPAREN) = false) : groupEnd d (t :: ts) = groupEnd d ts := by
  simp only [groupEnd, h1, h2, h3, hd, Bool.false_eq_true, ↓reduceIte]

theorem groupEnd_whitespace (d : Nat) (t : lex_token) (ts : List lex_token)
    (hw : IS_CATEGORY t WhiteSpaceTokenType = true) : groupEnd d (t :: ts) = groupEnd d ts := by
  obtain ⟨h1, h2, -, h4⟩ := whitespace_facts t hw
  have h3 := (not_paren_of_not_wordLike t h2).2
  by_cases hd : d = 0
  · subst hd
    simp only [groupEnd, h1, h4, h3, hw, Bool.false_eq_true, ↓reduceIte]
  · exact groupEnd_other d t ts hd h1 h4 h3

theorem groupEnd_block (d : Nat) (ws tail : List lex_token)
    (hws : ∀ t ∈ ws, IS_CATEGORY t WhiteSpaceTokenType = true) :
    groupEnd d (ws ++ tail) = groupEnd d tail := by
  induction ws with
  | nil => rfl
  | cons t ws ih =>
    rw [List.cons_append, groupEnd_whitespace d t _ (hws t (List.mem_cons_self _ _))]
    exact ih (fun u hu => hws u (List.mem_cons_of_mem _ hu))

theorem groupEnd_leftParen (d : Nat) (t : lex_token) (ts : List lex_token)
    (h : t.id = T_LEFTPAREN) : groupEnd d (t :: ts) = groupEnd (d + 1) ts := by
  have h1 : (t.id == T_EOF) = false := by rw [h]; rfl
  have h2 : (t.id == T_LEFTPAREN) = true := by rw [h]; rfl
  simp only [groupEnd, h1, h2, Bool.false_eq_true, ↓reduceIte]

theorem groupEnd_split (ts : List lex_token) : ∀ (e d : Nat) (rest : List lex_token),
    1 ≤ e → 1 ≤ d → groupEnd (d + e) ts = some rest →
    ∃ mid, groupEnd e ts = some mid ∧ groupEnd d mid = some rest := by
  induction ts with
  | nil => intro e d rest _ _ h; simp [groupEnd] at h
  | cons t ts ih =>
    intro e d rest he hd h
    by_cases h1 : (t.id == T_EOF) = true
    · simp [groupEnd, h1] at h
    · simp only [Bool.not_eq_true] at h1
      by_cases h2 : (t.id == T_LEFTPAREN) = true
      · simp only [groupEnd, h1, h2, Bool.false_eq_true, ↓reduceIte] at h ⊢
        exact ih (e + 1) d rest (by omega) hd (by rw [← Nat.add_assoc]; exact h)
      · simp only [Bool.not_eq_true] at h2
        by_cases h3 : (t.id == T_RIGHTPAREN) = true
        · have hne0 : d + e ≠ 0 := by omega
          have hne1 : d + e ≠ 1 := by omega
          simp only [groupEnd, h1, h2, h3, Bool.false_eq_true, ↓reduceIte, hne0, hne1] at h
          by_cases he1 : e = 1
          · subst he1
            refine ⟨ts, ?_, by simpa using h⟩
            simp only [groupEnd, h1, h2, h3, Bool.false_eq_true, ↓reduceIte, one_ne_zero]
          · have he0 : e ≠ 0 := by omega
            simp only [groupEnd, h1, h2, h3, Bool.false_eq_true, ↓reduceIte, he0, he1]
            exact ih (e - 1) d rest (by omega) hd
              (by rw [show d + (e - 1) = d + e - 1 by omega]; exact h)
        · simp only [Bool.not_eq_true] at h3
          rw [groupEnd_other _ _ _ (by omega) h1 h2 h3] at h
          rw [groupEnd_other _ _ _ (by omega) h1 h2 h3]
          exact ih e d rest he hd h

theorem groupEnd_none_of_lookahead (iter : List lex_token)
    (h : nextNonWhitespaceIsLeftParen iter = none) : ∀ d, groupEnd d iter = none := by
  induction iter with
  | nil => intro d; rfl
  | cons t iter ih =>
    intro d
    by_cases hw : IS_CATEGORY t WhiteSpaceTokenType = true
    · rw [nextNonWhitespaceIsLeftParen_skip _ _ hw] at h
      rw [groupEnd_whitespace d t _ hw]
      exact ih h d
    · simp only [Bool.not_eq_true] at hw
      rw [nextNonWhitespaceIsLeftParen_stop _ _ hw] at h
      cases h

/-- A run in call mode with `parenCount = d` on a stream whose group closes returns with
the cursor right after the closing `)`. -/
theorem Run_groupEnd {iter : List lex_token} {output : String} {mapper : TokenMapper}
    {mode les ltd : Bool} {pc : Int} {r : Outcome}
    (h : Run iter output mapper mode les ltd pc r) :
    mode = true → ∀ d : Nat, pc = (d : Int) → ∀ rest, groupEnd d iter = some rest →
      ∃ out m, r = Outcome.returned rest out m := by
  induction h with
  | nil => intro _ d _ rest hg; simp [groupEnd] at hg
  | eof token iter output mapper mode les ltd pc h1 =>
    intro _ d _ rest hg; simp [groupEnd, h1] at hg
  | lookPastEnd token iter output mapper mode les ltd pc h1 h2 h3 =>
    intro _ d _ rest hg
    exfalso
    have hid : IS_CATEGORY token IdentifierTokenType = true := by
      cases hc : IS_CATEGORY token IdentifierTokenType with
      | true => rfl
      | false => rw [callLookahead_not_identifier _ _ hc] at h3; cases h3
    rw [callLookahead_identifier _ _ hid] at h3
    obtain ⟨-, -, -, i4, i5⟩ := identifier_facts token hid
    by_cases hd : d = 0
    · subst hd
      simp [groupEnd, h1, i4, i5, (wordLike_facts token h2).2.1] at hg
    · rw [groupEnd_other d _ _ hd h1 i5 i4, groupEnd_none_of_lookahead iter h3 d] at hg
      cases hg
  | fusedPastEnd token iter output mapper mode les ltd pc h1 h2 h3 _ ihn =>
    intro _ d _ rest hg
    exfalso
    have hid : IS_CATEGORY token IdentifierTokenType = true := by
      cases hc : IS_CATEGORY token IdentifierTokenType with
      | true => rfl
      | false => rw [callLookahead_not_identifier _ _ hc] at h3; cases h3
    rw [callLookahead_identifier _ _ hid] at h3
    obtain ⟨-, -, -, i4, i5⟩ := identifier_facts token hid
    by_cases hd : d = 0
    · subst hd
      simp [groupEnd, h1, i4, i5, (wordLike_facts token h2).2.1] at hg
    · rw [groupEnd_other d _ _ hd h1 i5 i4] at hg
      obtain ⟨ws, lp, ts, e, hws, hlp⟩ := nextNonWhitespaceIsLeftParen_true iter h3
      rw [e, groupEnd_block d ws _ hws, groupEnd_leftParen d lp ts hlp] at hg
      obtain ⟨mid, hm, -⟩ := groupEnd_split ts 1 d rest le_rfl (by omega) hg
      have h0 : groupEnd 0 iter = some mid := by
        rw [e, groupEnd_block 0 ws _ hws, groupEnd_leftParen 0 lp ts hlp]
        exact hm
      obtain ⟨o, m, hr⟩ := ihn rfl 0 rfl mid h0
      cases hr
  | fused token iter output mapper mode les ltd pc iterN newoutput mapperN r h1 h2 h3 _ _
      ihn ihc =>
    intro hmode d hpc rest hg
    have hid : IS_CATEGORY token IdentifierTokenType = true := by
      cases hc : IS_CATEGORY token IdentifierTokenType with
      | true => rfl
      | false => rw [callLookahead_not_identifier _ _ hc] at h3; cases h3
    rw [callLookahead_identifier _ _ hid] at h3
    obtain ⟨-, -, -, i4, i5⟩ := identifier_facts token hid
    by_cases hd : d = 0
    · subst hd
      simp [groupEnd, h1, i4, i5, (wordLike_facts token h2).2.1] at hg
    · rw [groupEnd_other d _ _ hd h1 i5 i4] at hg
      obtain ⟨ws, lp, ts, e, hws, hlp⟩ := nextNonWhitespaceIsLeftParen_true iter h3
      rw [e, groupEnd_block d ws _ hws, groupEnd_leftParen d lp ts hlp] at hg
      obtain ⟨mid, hm, hrest⟩ := groupEnd_split ts 1 d rest le_rfl (by omega) hg
      have h0 : groupEnd 0 iter = some mid := by
        rw [e, groupEnd_block 0 ws _ hws, groupEnd_leftParen 0 lp ts hlp]
        exact hm
      obtain ⟨o, m, hr⟩ := ihn rfl 0 rfl mid h0
      cases hr
      exact ihc hmode d hpc rest hrest
  | wordReturn token iter output mapper mode les ltd pc h1 h2 h3 h4 h5 =>
    intro hmode d hpc rest hg
    subst hmode
    have hrp : (token.id == T_RIGHTPAREN) = true := by simpa using h4
    have hlp : (token.id == T_LEFTPAREN) = false := by
      have : token.id = T_RIGHTPAREN := by simpa using hrp
      rw [this]; rfl
    have hps : parenStep true token pc = pc := by simp [parenStep, hlp]
    rw [hps, hpc] at h5
    have hd1 : d = 1 := by omega
    subst hd1
    simp only [groupEnd, h1, hlp, hrp, Bool.false_eq_true, ↓reduceIte, one_ne_zero,
      Option.some.injEq] at hg
    subst hg
    exact ⟨_, _, rfl⟩
  | wordClose token iter output mapper mode les ltd pc r h1 h2 h3 h4 h5 _ ih =>
    intro hmode d hpc rest hg
    subst hmode
    have hrp : (token.id == T_RIGHTPAREN) = true := by simpa using h4
    have hlp : (token.id == T_LEFTPAREN) = false := by
      have : token.id = T_RIGHTPAREN := by simpa using hrp
      rw [this]; rfl
    have hps : parenStep true token pc = pc := by simp [parenStep, hlp]
    rw [hps] at h5 ih
    have hd1 : d ≠ 1 := by
      intro e; apply h5; rw [hpc, e]; rfl
    by_cases hd0 : d = 0
    · subst hd0
      simp [groupEnd, h1, hlp, hrp] at hg
    · simp only [groupEnd, h1, hlp, hrp, Bool.false_eq_true, ↓reduceIte, hd0, hd1] at hg
      exact ih rfl (d - 1) (by rw [hpc]; omega) rest hg
  | word token iter output mapper mode les ltd pc r h1 h2 h3 h4 _ ih =>
    intro hmode d hpc rest hg
    subst hmode
    have hrp : (token.id == T_RIGHTPAREN) = false := by simpa using h4
    by_cases hlp : (token.id == T_LEFTPAREN) = true
    · have hps : parenStep true token pc = pc + 1 := by simp [parenStep, hlp]
      rw [hps] at ih
      simp only [groupEnd, h1, hlp, Bool.false_eq_true, ↓reduceIte] at hg
      exact ih rfl (d + 1) (by rw [hpc]; push_cast; rfl) rest hg
    · simp only [Bool.not_eq_true] at hlp
      have hps : parenStep true token pc = pc := by simp [parenStep, hlp]
      rw [hps] at ih
      by_cases hd : d = 0
      · subst hd
        simp [groupEnd, h1, hlp, hrp, (wordLike_facts token h2).2.1] at hg
      · rw [groupEnd_other d _ _ hd h1 hlp hrp] at hg
        exact ih rfl d hpc rest hg
  | plain token iter output mapper mode les ltd pc r h1 h2 _ ih =>
    intro hmode d hpc rest hg
    obtain ⟨hlp, hrp⟩ := not_paren_of_not_wordLike token h2
    by_cases hd : d = 0
    · subst hd
      by_cases hw : IS_CATEGORY token WhiteSpaceTokenType = true
      · rw [groupEnd_whitespace 0 _ _ hw] at hg
        exact ih hmode 0 hpc rest hg
      · simp [groupEnd, h1, hlp, hrp, hw] at hg
    · rw [groupEnd_other d _ _ hd h1 hlp hrp] at hg
      exact ih hmode d hpc rest hg

/-- C14. When the stream at the cursor is whitespace and then a `(` whose group closes
before the end marker, `translate` in call mode returns, and the cursor it leaves is the
one right after the `)` that matches that first `(`. -/
theorem call_mode_extent (iter rest : List lex_token) (output : String) (mapper : TokenMapper)
    (h : groupEnd 0 iter = some rest) :
    ∃ out m, translate (iter.length + 1) iter output mapper true =
      Outcome.returned rest out m :=
  Run_groupEnd (run_translate iter output mapper true) rfl 0 rfl rest h

theorem call_mode_extent_witness :
    ∃ out m, translate (groupStream.length + 1) groupStream "" {} true =
      Outcome.returned [⟨T_SPACE, " "⟩, ⟨T_IDENTIFIER, "x"⟩, ⟨T_EOF, ""⟩] out m :=
  call_mode_extent groupStream [⟨T_SPACE, " "⟩, ⟨T_IDENTIFIER, "x"⟩, ⟨T_EOF, ""⟩] "" {}
    (by decide)

/-! ## Call-mode output stays on one line -/

theorem no_newline_append {a b : String} (ha : '\n' ∉ a.data) (hb : '\n' ∉ b.data) :
    '\n' ∉ (a ++ b).data := by
  simp only [String.data_append, List.mem_append, not_or]
  exact ⟨ha, hb⟩

theorem no_newline_c_str {s : String} (h : '\n' ∉ s.data) : '\n' ∉ (c_str s).data := by
  intro hm
  exact h ((List.takeWhile_sublist _).subset hm)

theorem no_newline_aliasOf (k : Nat) : '\n' ∉ (aliasOf k).data := by
  intro h
  have := (aliasOf_data k).2 _ h
  exact absurd this (by decide)

theorem lookup_mem (l : List (String × String)) (k v : String) (h : l.lookup k = some v) :
    (k, v) ∈ l := by
  induction l with
  | nil => simp [List.lookup] at h
  | cons p l ih =>
    obtain ⟨a, b⟩ := p
    by_cases hk : k = a
    · subst hk
      simp only [List.lookup, beq_self_eq_true, Option.some.injEq] at h
      subst h; simp
    · have h2 : (k == a) = false := by simpa using hk
      simp only [List.lookup, h2] at h
      exact List.mem_cons_of_mem _ (ih h)

theorem mapToken_no_newline (m : TokenMapper) (key : String) (hm : NoNewlineTable m)
    (hk : '\n' ∉ key.data) :
    '\n' ∉ (m.mapToken key).1.data ∧ NoNewlineTable (m.mapToken key).2 := by
  cases hl : m.tokenMap.lookup key with
  | some a =>
    rw [mapToken_present m key a hl]
    exact ⟨hm.1 (key, a) (lookup_mem _ _ _ hl), hm⟩
  | none =>
    rw [mapToken_absent m key hl]
    refine ⟨no_newline_aliasOf _, ?_, ?_⟩
    · intro p hp
      simp only [List.mem_append, List.mem_singleton] at hp
      rcases hp with h | h
      · exact hm.1 p h
      · rw [h]; exact no_newline_aliasOf _
    · intro p hp
      simp only [List.mem_append, List.mem_singleton] at hp
      rcases hp with h | h
      · exact hm.2 p h
      · rw [h]; exact hk

theorem space_no_newline : '\n' ∉ (" " : String).data := by decide

theorem withSeparator_no_newline (out : String) (les pt : Bool) (h : '\n' ∉ out.data) :
    '\n' ∉ (withSeparator out les pt).data := by
  unfold withSeparator
  split
  · exact no_newline_append h space_no_newline
  · exact h

theorem wordStep_no_newline (token : lex_token) (ltd pt : Bool) (out : String)
    (m : TokenMapper) (hm : NoNewlineTable m) (ht : '\n' ∉ token.value.data) :
    NoNewlineTable (wordStep token ltd pt out m).2 ∧
      ('\n' ∉ out.data → '\n' ∉ (wordStep token ltd pt out m).1.data) := by
  unfold wordStep
  split
  · obtain ⟨h1, h2⟩ := mapToken_no_newline m (c_str token.value) hm (no_newline_c_str ht)
    exact ⟨h2, fun ho => no_newline_append ho h1⟩
  · exact ⟨hm, fun ho => no_newline_append ho ht⟩

theorem fusedStep_no_newline (token : lex_token) (ltd : Bool) (out nw : String)
    (m : TokenMapper) (hm : NoNewlineTable m) (ht : '\n' ∉ token.value.data)
    (hn : '\n' ∉ nw.data) :
    NoNewlineTable (fusedStep token ltd out nw m).2 ∧
      ('\n' ∉ out.data → '\n' ∉ (fusedStep token ltd out nw m).1.data) := by
  unfold fusedStep
  split
  · obtain ⟨h1, h2⟩ := mapToken_no_newline m (c_str token.value ++ nw) hm
      (no_newline_append (no_newline_c_str ht) hn)
    exact ⟨h2, fun ho => no_newline_append (no_newline_append ho space_no_newline) h1⟩
  · exact ⟨hm, fun ho =>
      no_newline_append (no_newline_append (no_newline_append ho space_no_newline) ht) hn⟩

theorem plainStep_no_newline (token : lex_token) (out : String) (les ltd : Bool)
    (ht : token.id ≠ T_NEWLINE → '\n' ∉ token.value.data) (ho : '\n' ∉ out.data) :
    '\n' ∉ (plainStep token true out les ltd).1.data := by
  unfold plainStep
  by_cases h1 : (token.id == T_CCOMMENT || token.id == T_CPPCOMMENT) = true
  · rw [if_pos h1]; exact ho
  · rw [if_neg h1]
    by_cases h2 : (token.id == T_NEWLINE) = true
    · rw [if_pos h2]
      exact no_newline_append ho space_no_newline
    · rw [if_neg h2]
      by_cases h3 : IS_CATEGORY token WhiteSpaceTokenType = true
      · rw [if_pos h3]; exact no_newline_append ho space_no_newline
      · rw [if_neg h3]; exact no_newline_append ho (ht (by simpa using h2))

theorem wordLike_not_newline (token : lex_token) (h : isWordLike token = true) :
    token.id ≠ T_NEWLINE := by
  have := (wordLike_facts token h).2.2.1
  simpa using this

/-- A run keeps the alias table free of newline characters, and in call mode the output
too. -/
theorem Run_no_newline {iter : List lex_token} {output : String} {mapper : TokenMapper}
    {mode les ltd : Bool} {pc : Int} {r : Outcome}
    (h : Run iter output mapper mode les ltd pc r) :
    NewlineOnlyInNewlines iter → NoNewlineTable mapper →
    ∀ iter1 out1 m1, r = Outcome.returned iter1 out1 m1 →
      NoNewlineTable m1 ∧ (mode = true → '\n' ∉ output.data → '\n' ∉ out1.data) := by
  induction h with
  | nil => intro _ _ _ _ _ e; cases e
  | lookPastEnd => intro _ _ _ _ _ e; cases e
  | fusedPastEnd => intro _ _ _ _ _ e; cases e
  | eof token iter output mapper mode les ltd pc h1 =>
    intro _ hm _ _ _ e; cases e; exact ⟨hm, fun _ ho => ho⟩
  | wordReturn token iter output mapper mode les ltd pc h1 h2 h3 h4 h5 =>
    intro htok hm _ _ _ e; cases e
    have ht := htok token (List.mem_cons_self _ _) (wordLike_not_newline token h2)
    obtain ⟨a1, a2⟩ := wordStep_no_newline token ltd (passThroughOf mode token)
      (withSeparator output les (passThroughOf mode token)) mapper hm ht
    exact ⟨a1, fun _ ho => a2 (withSeparator_no_newline _ _ _ ho)⟩
  | wordClose token iter output mapper mode les ltd pc r h1 h2 h3 h4 h5 _ ih =>
    intro htok hm a b c e
    have ht := htok token (List.mem_cons_self _ _) (wordLike_not_newline token h2)
    obtain ⟨a1, a2⟩ := wordStep_no_newline token ltd (passThroughOf mode token)
      (withSeparator output les (passThroughOf mode token)) mapper hm ht
    obtain ⟨b1, b2⟩ := ih (fun t h => htok t (List.mem_cons_of_mem _ h)) a1 a b c e
    exact ⟨b1, fun hmode ho => b2 hmode (a2 (withSeparator_no_newline _ _ _ ho))⟩
  | word token iter output mapper mode les ltd pc r h1 h2 h3 h4 _ ih =>
    intro htok hm a b c e
    have ht := htok token (List.mem_cons_self _ _) (wordLike_not_newline token h2)
    obtain ⟨a1, a2⟩ := wordStep_no_newline token ltd (passThroughOf mode token)
      (withSeparator output les (passThroughOf mode token)) mapper hm ht
    obtain ⟨b1, b2⟩ := ih (fun t h => htok t (List.mem_cons_of_mem _ h)) a1 a b c e
    exact ⟨b1, fun hmode ho => b2 hmode (a2 (withSeparator_no_newline _ _ _ ho))⟩
  | plain token iter output mapper mode les ltd pc r h1 h2 _ ih =>
    intro htok hm a b c e
    obtain ⟨b1, b2⟩ := ih (fun t h => htok t (List.mem_cons_of_mem _ h)) hm a b c e
    refine ⟨b1, fun hmode ho => b2 hmode ?_⟩
    subst hmode
    exact plainStep_no_newline token output les ltd (htok token (List.mem_cons_self _ _)) ho
  | fused token iter output mapper mode les ltd pc iterN newoutput mapperN r h1 h2 h3 hn _
      ihn ihc =>
    intro htok hm a b c e
    have ht := htok token (List.mem_cons_self _ _) (wordLike_not_newline token h2)
    have htail : NewlineOnlyInNewlines iter := fun t h => htok t (List.mem_cons_of_mem _ h)
    obtain ⟨n1, n2⟩ := ihn htail hm iterN newoutput mapperN rfl
    have hnw : '\n' ∉ newoutput.data := n2 rfl (by decide)
    obtain ⟨a1, a2⟩ := fusedStep_no_newline token ltd
      (withSeparator output les (passThroughOf mode token)) newoutput mapperN n1 ht hnw
    obtain ⟨cn, hcn, -⟩ := Run_normal_ends_eof hn iterN newoutput mapperN rfl
    have htail2 : NewlineOnlyInNewlines iterN := by
      intro t h
      apply htail t
      rw [hcn]; exact List.mem_append_right _ h
    obtain ⟨b1, b2⟩ := ihc htail2 a1 a b c e
    exact ⟨b1, fun hmode ho => b2 hmode (a2 (withSeparator_no_newline _ _ _ ho))⟩

/-- C19. In a stream where only newline tokens have a text with a newline character, a
call-mode invocation of `translate` that starts from an alias table and an output
without newline characters returns an output and an alias table without newline
characters; and the alias table that `translate` leaves in normal mode from the empty
table has no text, so no combined key, with a newline character. -/
theorem one_logical_line (iter : List lex_token) (htok : NewlineOnlyInNewlines iter) :
    (∀ (output : String) (mapper : TokenMapper) (iter1 : List lex_token) (out1 : String)
      (m1 : TokenMapper), NoNewlineTable mapper → '\n' ∉ output.data →
      translate (iter.length + 1) iter output mapper true = Outcome.returned iter1 out1 m1 →
      '\n' ∉ out1.data ∧ NoNewlineTable m1) ∧
    (∀ (rest : List lex_token) (body : String) (mapper : TokenMapper),
      bleach iter = Outcome.returned rest body mapper →
      ∀ p ∈ mapper.pairs, '\n' ∉ p.2.data) := by
  constructor
  · intro output mapper iter1 out1 m1 hm ho hr
    have hrun := run_translate iter output mapper true
    rw [hr] at hrun
    obtain ⟨h1, h2⟩ := Run_no_newline hrun htok hm iter1 out1 m1 rfl
    exact ⟨h2 rfl ho, h1⟩
  · intro rest body mapper hr
    have hrun := run_translate iter "" {} false
    have hb : translate (iter.length + 1) iter "" {} false =
        Outcome.returned rest body mapper := hr
    rw [hb] at hrun
    have hempty : NoNewlineTable {} := ⟨by intro p hp; simp at hp, by intro p hp; simp at hp⟩
    exact (Run_no_newline hrun htok hempty rest body mapper rfl).1.2

theorem one_logical_line_witness :
    translate (groupWithNewline.length + 1) groupWithNewline "" {} true =
      Outcome.returned [⟨T_EOF, ""⟩] "( \u200b \u200c)"
        { pairs := [("\u200b", "a"), ("\u200c", "b")], tokenMap := [("a", "\u200b"), ("b", "\u200c")],
          curid := 2 } ∧
    ((∀ (output : String) (mapper : TokenMapper) (iter1 : List lex_token) (out1 : String)
      (m1 : TokenMapper), NoNewlineTable mapper → '\n' ∉ output.data →
      translate (groupWithNewline.length + 1) groupWithNewline output mapper true =
        Outcome.returned iter1 out1 m1 →
      '\n' ∉ out1.data ∧ NoNewlineTable m1) ∧
    (∀ (rest : List lex_token) (body : String) (mapper : TokenMapper),
      bleach groupWithNewline = Outcome.returned rest body mapper →
      ∀ p ∈ mapper.pairs, '\n' ∉ p.2.data)) :=
  ⟨by decide, one_logical_line groupWithNewline (by unfold NewlineOnlyInNewlines; decide)⟩

/-! ## The separator invariant -/

end Bleach
